import Mathlib

/-!
Verification of the streaming byte-to-text transcoder `TextReader` from
`src/parsing/text_reader.rs`.

The reader wraps a buffered byte source (the Rust `BufRead` fill/consume
protocol) and a stateful decoder (the `encoding_rs::Decoder` collaborator).
Bytes are modelled as natural numbers, byte slices as `List Nat`, and the
caller's output buffer by its remaining capacity together with the list of
bytes written into it so far.  Fallible operations return `Except`.
-/

namespace AttoText

/-- Completion signal of one decode step, mirroring `encoding_rs::CoderResult`. -/
inductive CoderResult : Type
  | inputEmpty : CoderResult
  | outputFull : CoderResult
deriving DecidableEq, Repr

/-- Result of one decode step: the completion signal, the count of input bytes
consumed, and the output bytes written (their number is the `written` count of
`decode_to_utf8`). -/
structure DecRet : Type where
  res : CoderResult
  nread : Nat
  out : List Nat
deriving DecidableEq, Repr

/-- The decoder collaborator: a stateful, resumable conversion engine.
`step state input capacity last` mirrors `Decoder::decode_to_utf8(src, dst, last)`
where `capacity` is the length of the destination slice. -/
structure Decoder (σ : Type) : Type where
  step : σ → List Nat → Nat → Bool → DecRet × σ

/-- A decoder step is conforming when it writes no more than the output
capacity, consumes no more input than offered, and reports input-exhausted
only when it consumed all offered input.  Every `encoding_rs` decoder
satisfies this contract. -/
def Conforms {σ : Type} (d : Decoder σ) : Prop :=
  ∀ s inp cap last,
    (d.step s inp cap last).1.out.length ≤ cap ∧
    (d.step s inp cap last).1.nread ≤ inp.length ∧
    ((d.step s inp cap last).1.res = CoderResult.inputEmpty →
      (d.step s inp cap last).1.nread = inp.length)

/-- The buffered byte source (`BufRead` collaborator).  `chunks` are the
byte runs successive refills produce; `failAt` optionally marks the index of
the fill call that fails with I/O error payload `errCode`; `nfills` counts
fill calls made so far. -/
structure Source : Type where
  chunks : List (List Nat)
  failAt : Option Nat
  errCode : Nat
  nfills : Nat
deriving DecidableEq, Repr

/-- `fill_buf`: return the currently available bytes without consuming them
(the head chunk, or `[]` at end-of-stream), or the injected I/O error. -/
def Source.fillBuf (s : Source) : Except Nat (List Nat × Source) :=
  if s.failAt = some s.nfills then Except.error s.errCode
  else Except.ok (s.chunks.headD [], { s with nfills := s.nfills + 1 })

/-- `consume(n)`: advance past `n` bytes previously returned by `fillBuf`. -/
def Source.consume (s : Source) (n : Nat) : Source :=
  match s.chunks with
  | [] => s
  | c :: rest =>
    { s with chunks := if (c.drop n).isEmpty then rest else c.drop n :: rest }

/-- Concatenation of a list of chunks. -/
def joinL : List (List Nat) → List Nat
  | [] => []
  | c :: t => c ++ joinL t

/-- All bytes the source has yet to deliver. -/
def Source.allBytes (s : Source) : List Nat := joinL s.chunks

/-- A well-formed source has no empty chunk: `fillBuf` returns `[]` only at
true end-of-stream (the assumption recorded in the design notes). -/
def Source.Wf (s : Source) : Prop :=
  ∀ c ∈ s.chunks, c ≠ []

/-- The transcoding reader: wrapped source, decoder state and the `eof` flag.
Mirrors `struct TextReader`. -/
structure TextReader (σ : Type) : Type where
  inner : Source
  decSt : σ
  eof : Bool
deriving DecidableEq, Repr

/-- The body of `<TextReader as Read>::read`: the loop over fill/decode/consume.
Arguments after the fuel mirror the Rust locals: the source, the decoder state,
the remaining length of `buf` (which is re-sliced by `written` after each
non-final decode), the running `total_written`, and the bytes written into the
caller's buffer so far.  Returns the call result, the new source and decoder
states, the `eof` flag established by this call, and the buffer contents;
`none` means the fuel ran out (the Rust loop would still be running). -/
def readLoop {σ : Type} (d : Decoder σ) :
    Nat → Source → σ → Nat → Nat → List Nat →
    Option (Except Nat Nat × Source × σ × Bool × List Nat)
  | 0, _, _, _, _, _ => none
  | fuel + 1, src, ds, cap, total, acc =>
    match src.fillBuf with
    | Except.error e => some (Except.error e, src, ds, false, acc)
    | Except.ok (bs, src2) =>
      if bs.isEmpty then
        -- inner has reached EOF, write last to the buffer.
        let p := d.step ds [] cap true
        match p.1.res with
        | CoderResult.inputEmpty =>
          some (Except.ok (total + p.1.out.length), src2, p.2, true, acc ++ p.1.out)
        | CoderResult.outputFull =>
          some (Except.ok (total + p.1.out.length), src2, p.2, false, acc ++ p.1.out)
      else
        let p := d.step ds bs cap false
        match p.1.res with
        | CoderResult.inputEmpty =>
          readLoop d fuel (src2.consume p.1.nread) p.2 (cap - p.1.out.length)
            (total + p.1.out.length) (acc ++ p.1.out)
        | CoderResult.outputFull =>
          some (Except.ok (total + p.1.out.length), src2.consume p.1.nread, p.2,
            false, acc ++ p.1.out)

/-- `TextReader::read` with an output buffer of length `cap`: the `eof`
short-circuit followed by the loop. -/
def TextReader.read {σ : Type} (d : Decoder σ) (r : TextReader σ) (cap fuel : Nat) :
    Option (Except Nat Nat × TextReader σ × List Nat) :=
  if r.eof then some (Except.ok 0, r, [])
  else
    match readLoop d fuel r.inner r.decSt cap 0 [] with
    | none => none
    | some (res, src, ds, e, acc) => some (res, ⟨src, ds, e⟩, acc)

/-- `read` with the fuel that always suffices for a conforming decoder
(one loop iteration per source chunk, plus the final flush). -/
def TextReader.readAuto {σ : Type} (d : Decoder σ) (r : TextReader σ) (cap : Nat) :
    Option (Except Nat Nat × TextReader σ × List Nat) :=
  r.read d cap (r.inner.chunks.length + 1)

/-- Repeatedly call `read` (as `Read::read_to_string` does) until a call
returns 0 bytes, concatenating the bytes each call wrote. -/
def readToEnd {σ : Type} (d : Decoder σ) :
    Nat → TextReader σ → Nat → Option (Except Nat (List Nat))
  | 0, _, _ => none
  | calls + 1, r, cap =>
    match r.readAuto d cap with
    | none => none
    | some (Except.error e, _, _) => some (Except.error e)
    | some (Except.ok n, r2, acc) =>
      if n = 0 then some (Except.ok [])
      else
        match readToEnd d calls r2 cap with
        | none => none
        | some (Except.error e) => some (Except.error e)
        | some (Except.ok rest) => some (Except.ok (acc ++ rest))

/-! ### The UTF-8 decoder collaborator

Modelled from the spec: the stateful UTF-8-to-UTF-8 `Decoder` collaborator
(`encoding_rs`, not part of this repository) — it holds partial multi-byte
sequence state across calls, replaces malformed input with U+FFFD rather
than rejecting it, and reports output-full without partial characters. -/

/-- The UTF-8 encoding of U+FFFD, the replacement character. -/
def repl : List Nat := [0xEF, 0xBF, 0xBD]

/-- Total length of a UTF-8 sequence as determined by its lead byte;
`none` for an invalid lead byte. -/
def utf8Len (b : Nat) : Option Nat :=
  if b < 0x80 then some 1
  else if 0xC2 ≤ b ∧ b ≤ 0xDF then some 2
  else if 0xE0 ≤ b ∧ b ≤ 0xEF then some 3
  else if 0xF0 ≤ b ∧ b ≤ 0xF4 then some 4
  else none

/-- Whether `b` is acceptable as the `i`-th continuation byte after lead
byte `lead` (shortest-form and surrogate restrictions on the first
continuation byte). -/
def contOkB (lead i b : Nat) : Bool :=
  if i = 1 then
    if lead = 0xE0 then decide (0xA0 ≤ b ∧ b ≤ 0xBF)
    else if lead = 0xED then decide (0x80 ≤ b ∧ b ≤ 0x9F)
    else if lead = 0xF0 then decide (0x90 ≤ b ∧ b ≤ 0xBF)
    else if lead = 0xF4 then decide (0x80 ≤ b ∧ b ≤ 0x8F)
    else decide (0x80 ≤ b ∧ b ≤ 0xBF)
  else decide (0x80 ≤ b ∧ b ≤ 0xBF)

/-- Classification of the front of a byte stream: empty, an incomplete but
so-far-valid sequence needing more input, or a minimal decode unit of `k`
bytes emitting `out` (a complete character emitting itself, or a maximal
malformed subpart emitting the replacement character). -/
inductive Front : Type
  | empty : Front
  | needMore : Front
  | unit (k : Nat) (out : List Nat) : Front
deriving DecidableEq, Repr

/-- Scan continuation bytes `i, i+1, …` of a sequence with lead `lead` and
total length `n`; `acc` holds the bytes accepted so far. -/
def u8FrontAux (lead n : Nat) : Nat → List Nat → List Nat → Front
  | _, _, [] => Front.needMore
  | i, acc, b :: bs =>
    if contOkB lead i b then
      if i + 1 = n then Front.unit n (acc ++ [b])
      else u8FrontAux lead n (i + 1) (acc ++ [b]) bs
    else Front.unit acc.length repl

/-- Classify the front of a byte stream. -/
def u8Front : List Nat → Front
  | [] => Front.empty
  | b :: rest =>
    match utf8Len b with
    | none => Front.unit 1 repl
    | some n => if n = 1 then Front.unit 1 [b] else u8FrontAux b n 1 [b] rest

/-- Decode units from the front of `w` while they fit in the remaining
output capacity; returns the number of bytes of `w` processed and the
output bytes produced.  The fuel is only a structural bound: `w.length`
always suffices. -/
def u8RunF : Nat → List Nat → Nat → Nat × List Nat
  | 0, _, _ => (0, [])
  | fuel + 1, w, cap =>
    match u8Front w with
    | Front.empty => (0, [])
    | Front.needMore => (0, [])
    | Front.unit k out =>
      if out.length ≤ cap then
        let p := u8RunF fuel (w.drop k) (cap - out.length)
        (k + p.1, out ++ p.2)
      else (0, [])

/-- One decode step of the UTF-8 decoder.  The state is the pending
incomplete sequence carried across calls; decode units are drained from the
pending bytes followed by the new input for as long as they fit in the
output.  Bytes moved into the pending state count as read. -/
def u8Step (pend inp : List Nat) (cap : Nat) (last : Bool) : DecRet × List Nat :=
  match u8Front ((pend ++ inp).drop (u8RunF (pend ++ inp).length (pend ++ inp) cap).1) with
  | Front.empty =>
    (⟨CoderResult.inputEmpty, inp.length,
      (u8RunF (pend ++ inp).length (pend ++ inp) cap).2⟩, [])
  | Front.needMore =>
    if last then
      if (u8RunF (pend ++ inp).length (pend ++ inp) cap).2.length + 3 ≤ cap then
        (⟨CoderResult.inputEmpty, inp.length,
          (u8RunF (pend ++ inp).length (pend ++ inp) cap).2 ++ repl⟩, [])
      else
        (⟨CoderResult.outputFull, inp.length,
          (u8RunF (pend ++ inp).length (pend ++ inp) cap).2⟩,
          (pend ++ inp).drop (u8RunF (pend ++ inp).length (pend ++ inp) cap).1)
    else
      (⟨CoderResult.inputEmpty, inp.length,
        (u8RunF (pend ++ inp).length (pend ++ inp) cap).2⟩,
        (pend ++ inp).drop (u8RunF (pend ++ inp).length (pend ++ inp) cap).1)
  | Front.unit _ _ =>
    (⟨CoderResult.outputFull,
      (u8RunF (pend ++ inp).length (pend ++ inp) cap).1 - pend.length,
      (u8RunF (pend ++ inp).length (pend ++ inp) cap).2⟩,
      if (u8RunF (pend ++ inp).length (pend ++ inp) cap).1 = 0 then pend else [])

/-- The UTF-8 decoder; its state is the pending incomplete sequence. -/
def u8Decoder : Decoder (List Nat) := ⟨u8Step⟩

/-! ### The Windows-1252 decoder collaborator

Modelled from the spec: the stateless Windows-1252 `Decoder` collaborator
(`encoding_rs`, not part of this repository) — every byte maps to one code
point, so it carries no state across calls. -/

/-- The Windows-1252 byte-to-code-point mapping (identity outside 0x80–0x9F). -/
def w1252Map (b : Nat) : Nat :=
  if b = 0x80 then 0x20AC else if b = 0x81 then 0x81
  else if b = 0x82 then 0x201A else if b = 0x83 then 0x192
  else if b = 0x84 then 0x201E else if b = 0x85 then 0x2026
  else if b = 0x86 then 0x2020 else if b = 0x87 then 0x2021
  else if b = 0x88 then 0x2C6 else if b = 0x89 then 0x2030
  else if b = 0x8A then 0x160 else if b = 0x8B then 0x2039
  else if b = 0x8C then 0x152 else if b = 0x8D then 0x8D
  else if b = 0x8E then 0x17D else if b = 0x8F then 0x8F
  else if b = 0x90 then 0x90 else if b = 0x91 then 0x2018
  else if b = 0x92 then 0x2019 else if b = 0x93 then 0x201C
  else if b = 0x94 then 0x201D else if b = 0x95 then 0x2022
  else if b = 0x96 then 0x2013 else if b = 0x97 then 0x2014
  else if b = 0x98 then 0x2DC else if b = 0x99 then 0x2122
  else if b = 0x9A then 0x161 else if b = 0x9B then 0x203A
  else if b = 0x9C then 0x153 else if b = 0x9D then 0x9D
  else if b = 0x9E then 0x17E else if b = 0x9F then 0x178
  else b

/-- The UTF-8 encoding of a code point. -/
def utf8Enc (cp : Nat) : List Nat :=
  if cp < 0x80 then [cp]
  else if cp < 0x800 then [0xC0 + cp / 0x40, 0x80 + cp % 0x40]
  else if cp < 0x10000 then
    [0xE0 + cp / 0x1000, 0x80 + cp / 0x40 % 0x40, 0x80 + cp % 0x40]
  else
    [0xF0 + cp / 0x40000, 0x80 + cp / 0x1000 % 0x40, 0x80 + cp / 0x40 % 0x40,
      0x80 + cp % 0x40]

/-- Decode Windows-1252 bytes while their UTF-8 encodings fit in the
remaining output capacity; returns bytes consumed and output produced. -/
def w1252Run : List Nat → Nat → Nat × List Nat
  | [], _ => (0, [])
  | b :: bs, cap =>
    if (utf8Enc (w1252Map b)).length ≤ cap then
      ((w1252Run bs (cap - (utf8Enc (w1252Map b)).length)).1 + 1,
        utf8Enc (w1252Map b) ++ (w1252Run bs (cap - (utf8Enc (w1252Map b)).length)).2)
    else (0, [])

/-- One decode step of the Windows-1252 decoder (stateless). -/
def w1252Step (_ : Unit) (inp : List Nat) (cap : Nat) (_ : Bool) : DecRet × Unit :=
  (⟨if (w1252Run inp cap).1 = inp.length then CoderResult.inputEmpty
    else CoderResult.outputFull, (w1252Run inp cap).1, (w1252Run inp cap).2⟩, ())

/-- The Windows-1252 decoder. -/
def w1252Decoder : Decoder Unit := ⟨w1252Step⟩

/-- The canonical Windows-1252 transcoding of a whole byte sequence. -/
def w1252All : List Nat → List Nat
  | [] => []
  | b :: bs => utf8Enc (w1252Map b) ++ w1252All bs

/-! ### Validity of UTF-8 byte sequences, and instrumentation -/

/-- `contsOkB lead i cs` checks the bytes `cs` as continuation bytes
`i, i+1, …` of a sequence with lead byte `lead`. -/
def contsOkB (lead : Nat) : Nat → List Nat → Bool
  | _, [] => true
  | i, b :: bs => contOkB lead i b && contsOkB lead (i + 1) bs

/-- `c` is the encoding of one character: an ASCII byte, or a lead byte
followed by exactly the right continuation bytes. -/
def IsCharL (c : List Nat) : Prop :=
  (∃ b, c = [b] ∧ utf8Len b = some 1) ∨
  (∃ b n cs, c = b :: cs ∧ utf8Len b = some n ∧ 2 ≤ n ∧ cs.length = n - 1 ∧
    contsOkB b 1 cs = true)

/-- A byte sequence is valid UTF-8 when it is a concatenation of
character encodings. -/
inductive ValidU8 : List Nat → Prop
  | nil : ValidU8 []
  | cons (c w : List Nat) : IsCharL c → ValidU8 w → ValidU8 (c ++ w)

/-- `w` is a prefix at which a valid UTF-8 stream can still continue. -/
def StreamPre (w : List Nat) : Prop := ∃ z, ValidU8 (w ++ z)

/-- Executable check that a byte sequence is valid UTF-8 (fuelled; the
length always suffices). -/
def validU8F : Nat → List Nat → Bool
  | _, [] => true
  | 0, _ :: _ => false
  | f + 1, b :: rest =>
    match utf8Len b with
    | none => false
    | some n =>
      if n = 1 then validU8F f rest
      else
        decide (n - 1 ≤ rest.length) && contsOkB b 1 (rest.take (n - 1)) &&
          validU8F f (rest.drop (n - 1))

/-- Executable validity of a UTF-8 byte sequence. -/
def validU8 (w : List Nat) : Bool := validU8F w.length w

/-- A well-formed pending state of the UTF-8 decoder: empty, or an
incomplete sequence still awaiting continuation bytes. -/
def PendWf (p : List Nat) : Prop := p = [] ∨ u8Front p = Front.needMore

/-- The bytes the UTF-8 transcoding still has to emit from: decoder-buffered
bytes followed by the unread source bytes. -/
def u8Abs (r : TextReader (List Nat)) : List Nat := r.decSt ++ r.inner.allBytes

/-- Termination measure for repeated reads through the UTF-8 decoder. -/
def u8Meas (r : TextReader (List Nat)) : Nat :=
  2 * r.inner.allBytes.length + r.decSt.length

/-- Instrumentation: the same decoder, additionally counting in its state
how many times it has been invoked with `is_final = true`. -/
def countFinal {σ : Type} (d : Decoder σ) : Decoder (σ × Nat) :=
  ⟨fun s inp cap last =>
    ((d.step s.1 inp cap last).1,
      ((d.step s.1 inp cap last).2, if last then s.2 + 1 else s.2))⟩

/-! ### Basic facts about the source protocol -/

theorem fillBuf_ok {s s2 : Source} {bs : List Nat}
    (h : s.fillBuf = Except.ok (bs, s2)) :
    bs = s.chunks.headD [] ∧ s2.chunks = s.chunks ∧ s2.failAt = s.failAt ∧
      s2.errCode = s.errCode := by
  unfold Source.fillBuf at h
  split at h
  · exact absurd h (by simp)
  · simp only [Except.ok.injEq, Prod.mk.injEq] at h
    obtain ⟨h1, h2⟩ := h
    subst h2
    exact ⟨h1.symm, rfl, rfl, rfl⟩

theorem fillBuf_error {s : Source} {e : Nat} (h : s.fillBuf = Except.error e) :
    e = s.errCode ∧ s.failAt = some s.nfills := by
  unfold Source.fillBuf at h
  split at h
  · simp only [Except.error.injEq] at h
    constructor
    · exact h.symm
    · assumption
  · exact absurd h (by simp)

theorem consume_fields (s : Source) (n : Nat) :
    (s.consume n).failAt = s.failAt ∧ (s.consume n).errCode = s.errCode ∧
      (s.consume n).nfills = s.nfills := by
  unfold Source.consume
  cases s.chunks <;> simp

/-- Consuming `n` bytes of the currently available chunk leaves exactly the
later bytes of the stream: nothing the decoder did not use is lost. -/
theorem consume_allBytes (s : Source) (n : Nat) (c : List Nat) (t : List (List Nat))
    (hc : s.chunks = c :: t) (hn : n ≤ c.length) :
    (s.consume n).allBytes = s.allBytes.drop n := by
  unfold Source.consume Source.allBytes
  rw [hc]
  by_cases hz : (c.drop n).isEmpty
  · have hcl : c.length ≤ n := by
      rcases List.isEmpty_iff.mp hz with h0
      have := List.drop_eq_nil_iff.mp h0
      omega
    have hnn : n = c.length := le_antisymm hn hcl
    subst hnn
    simp [hz, joinL, List.drop_append_of_le_length]
  · simp [hz, joinL, List.drop_append_of_le_length hn]

/-! ### C1–C3: the shape of the read loop -/

/-- Unfolding equation for one iteration of the read loop. -/
theorem readLoop_succ {σ : Type} (d : Decoder σ) (fuel : Nat) (src : Source)
    (ds : σ) (cap total : Nat) (acc : List Nat) :
    readLoop d (fuel + 1) src ds cap total acc =
      match src.fillBuf with
      | Except.error e => some (Except.error e, src, ds, false, acc)
      | Except.ok (bs, src2) =>
        if bs.isEmpty then
          match (d.step ds [] cap true).1.res with
          | CoderResult.inputEmpty =>
            some (Except.ok (total + (d.step ds [] cap true).1.out.length), src2,
              (d.step ds [] cap true).2, true, acc ++ (d.step ds [] cap true).1.out)
          | CoderResult.outputFull =>
            some (Except.ok (total + (d.step ds [] cap true).1.out.length), src2,
              (d.step ds [] cap true).2, false, acc ++ (d.step ds [] cap true).1.out)
        else
          match (d.step ds bs cap false).1.res with
          | CoderResult.inputEmpty =>
            readLoop d fuel (src2.consume (d.step ds bs cap false).1.nread)
              (d.step ds bs cap false).2 (cap - (d.step ds bs cap false).1.out.length)
              (total + (d.step ds bs cap false).1.out.length)
              (acc ++ (d.step ds bs cap false).1.out)
          | CoderResult.outputFull =>
            some (Except.ok (total + (d.step ds bs cap false).1.out.length),
              src2.consume (d.step ds bs cap false).1.nread,
              (d.step ds bs cap false).2, false,
              acc ++ (d.step ds bs cap false).1.out) := rfl

/-- C1: in any iteration of the read loop where `fillBuf` reports zero
available bytes, the decoder is invoked with empty input and `is_final = true`;
the `eof` flag produced by the call equals `true` exactly when that
final-flush step reports input-exhausted, and on output-full the loop stops
with `eof` still unset (so the next call re-issues the final flush). -/
theorem c1_final_flush {σ : Type} (d : Decoder σ) (fuel : Nat) (src src2 : Source)
    (ds : σ) (cap total : Nat) (acc : List Nat)
    (h : src.fillBuf = Except.ok ([], src2)) :
    readLoop d (fuel + 1) src ds cap total acc =
      some (Except.ok (total + (d.step ds [] cap true).1.out.length), src2,
        (d.step ds [] cap true).2,
        decide ((d.step ds [] cap true).1.res = CoderResult.inputEmpty),
        acc ++ (d.step ds [] cap true).1.out) := by
  unfold readLoop
  rw [h]
  cases hres : (d.step ds [] cap true).1.res <;> simp [hres]

/-- C2: once `eof` is set, every call to `read` returns 0 without error and
leaves the reader — source, decoder state and flag — untouched; since this
holds for an arbitrary decoder `d`, the decoder is never invoked. -/
theorem c2_eof_idempotent {σ : Type} (d : Decoder σ) (r : TextReader σ)
    (cap fuel : Nat) (h : r.eof = true) :
    r.read d cap fuel = some (Except.ok 0, r, []) := by
  simp [TextReader.read, h]

/-- C3: in any iteration of the read loop where `fillBuf` reports a
non-empty chunk, the source carried into the rest of the call is advanced by
exactly the `nread` the decoder reported — and consuming `n ≤` chunk-length
bytes leaves precisely the unread suffix of the stream for the next fill. -/
theorem c3_consume_exact {σ : Type} (d : Decoder σ) (fuel : Nat) (src src2 : Source)
    (ds : σ) (cap total : Nat) (acc : List Nat) (bs : List Nat)
    (h : src.fillBuf = Except.ok (bs, src2)) (hne : bs ≠ []) :
    (readLoop d (fuel + 1) src ds cap total acc =
      match (d.step ds bs cap false).1.res with
      | CoderResult.inputEmpty =>
        readLoop d fuel (src2.consume (d.step ds bs cap false).1.nread)
          (d.step ds bs cap false).2 (cap - (d.step ds bs cap false).1.out.length)
          (total + (d.step ds bs cap false).1.out.length)
          (acc ++ (d.step ds bs cap false).1.out)
      | CoderResult.outputFull =>
        some (Except.ok (total + (d.step ds bs cap false).1.out.length),
          src2.consume (d.step ds bs cap false).1.nread, (d.step ds bs cap false).2,
          false, acc ++ (d.step ds bs cap false).1.out)) ∧
    ∀ n ≤ bs.length, (src2.consume n).allBytes = src2.allBytes.drop n := by
  constructor
  · rw [readLoop_succ, h]
    cases bs with
    | nil => exact absurd rfl hne
    | cons a l =>
      dsimp only [List.isEmpty]
      cases hres : (d.step ds (a :: l) cap false).1.res <;> simp [hres]
  · intro n hn
    obtain ⟨hbs, hck, _, _⟩ := fillBuf_ok h
    have : src2.chunks = bs :: src.chunks.tail := by
      cases hc : src.chunks with
      | nil => rw [hc] at hbs; simp at hbs; exact absurd hbs hne
      | cons c t =>
        rw [hc] at hbs
        simp at hbs
        rw [hck, hc, hbs]
        rfl
    exact consume_allBytes src2 n bs src.chunks.tail this hn

/-! ### C4 and C9: error propagation and termination of the loop -/

theorem consume_chunks_head {s : Source} {c : List Nat} {t : List (List Nat)}
    (hc : s.chunks = c :: t) : (s.consume c.length).chunks = t := by
  unfold Source.consume
  rw [hc]
  simp

/-- Branch equation: the loop on a failing fill. -/
theorem readLoop_err_eq {σ : Type} (d : Decoder σ) {src : Source} {e : Nat}
    (fuel : Nat) (ds : σ) (cap total : Nat) (acc : List Nat)
    (h : src.fillBuf = Except.error e) :
    readLoop d (fuel + 1) src ds cap total acc =
      some (Except.error e, src, ds, false, acc) := by
  rw [readLoop_succ, h]

/-- Branch equation: the loop on an empty fill (the final-flush branch). -/
theorem readLoop_empty_eq {σ : Type} (d : Decoder σ) {src src2 : Source}
    (fuel : Nat) (ds : σ) (cap total : Nat) (acc : List Nat)
    (h : src.fillBuf = Except.ok ([], src2)) :
    readLoop d (fuel + 1) src ds cap total acc =
      match (d.step ds [] cap true).1.res with
      | CoderResult.inputEmpty =>
        some (Except.ok (total + (d.step ds [] cap true).1.out.length), src2,
          (d.step ds [] cap true).2, true, acc ++ (d.step ds [] cap true).1.out)
      | CoderResult.outputFull =>
        some (Except.ok (total + (d.step ds [] cap true).1.out.length), src2,
          (d.step ds [] cap true).2, false, acc ++ (d.step ds [] cap true).1.out) := by
  rw [readLoop_succ, h]
  rfl

/-- Branch equation: the loop on a non-empty fill. -/
theorem readLoop_cons_eq {σ : Type} (d : Decoder σ) {src src2 : Source}
    {bs : List Nat} (fuel : Nat) (ds : σ) (cap total : Nat) (acc : List Nat)
    (h : src.fillBuf = Except.ok (bs, src2)) (hne : bs.isEmpty = false) :
    readLoop d (fuel + 1) src ds cap total acc =
      match (d.step ds bs cap false).1.res with
      | CoderResult.inputEmpty =>
        readLoop d fuel (src2.consume (d.step ds bs cap false).1.nread)
          (d.step ds bs cap false).2 (cap - (d.step ds bs cap false).1.out.length)
          (total + (d.step ds bs cap false).1.out.length)
          (acc ++ (d.step ds bs cap false).1.out)
      | CoderResult.outputFull =>
        some (Except.ok (total + (d.step ds bs cap false).1.out.length),
          src2.consume (d.step ds bs cap false).1.nread,
          (d.step ds bs cap false).2, false,
          acc ++ (d.step ds bs cap false).1.out) := by
  rw [readLoop_succ, h]
  simp [hne]

/-- Errors returned by the loop come only from `fillBuf` and carry the
source's error payload verbatim. -/
theorem readLoop_error {σ : Type} (d : Decoder σ) :
    ∀ fuel src ds cap total acc e src2 ds2 eo acc2,
      readLoop d fuel src ds cap total acc = some (Except.error e, src2, ds2, eo, acc2) →
      e = src.errCode ∧ src.failAt.isSome := by
  intro fuel
  induction fuel with
  | zero =>
    intro src ds cap total acc e src2 ds2 eo acc2 h
    exact absurd h (by simp [readLoop])
  | succ f ih =>
    intro src ds cap total acc e src2 ds2 eo acc2 h
    cases hf : src.fillBuf with
    | error e2 =>
      rw [readLoop_err_eq d f ds cap total acc hf] at h
      simp only [Option.some.injEq, Prod.mk.injEq, Except.error.injEq] at h
      obtain ⟨he, -⟩ := h
      obtain ⟨he2, hsome⟩ := fillBuf_error hf
      subst he
      exact ⟨he2, by rw [hsome]; rfl⟩
    | ok pr =>
      obtain ⟨bs, src3⟩ := pr
      obtain ⟨-, hck, hfa, hec⟩ := fillBuf_ok hf
      by_cases hbe : bs.isEmpty
      · cases bs with
        | cons a l => simp at hbe
        | nil =>
          rw [readLoop_empty_eq d f ds cap total acc hf] at h
          cases hres : (d.step ds [] cap true).1.res <;> rw [hres] at h <;> simp at h
      · have hbe2 : bs.isEmpty = false := by
          cases hb : bs.isEmpty
          · rfl
          · exact absurd hb hbe
        rw [readLoop_cons_eq d f ds cap total acc hf hbe2] at h
        cases hres : (d.step ds bs cap false).1.res <;> rw [hres] at h
        · have := ih _ _ _ _ _ _ _ _ _ _ h
          obtain ⟨h1, h2⟩ := this
          obtain ⟨hfa2, hec2, -⟩ :=
            consume_fields src3 (d.step ds bs cap false).1.nread
          constructor
          · rw [h1, hec2, hec]
          · rw [hfa2, hfa] at h2
            exact h2
        · simp at h

/-- With enough fuel — one iteration per source chunk plus the final flush —
the loop always returns, and returns a byte count unless a fill failed. -/
theorem readLoop_total {σ : Type} (d : Decoder σ) (hc : Conforms d) :
    ∀ fuel src ds cap total acc, src.chunks.length < fuel →
      ∃ res src2 ds2 eo acc2,
        readLoop d fuel src ds cap total acc = some (res, src2, ds2, eo, acc2) ∧
        (src.failAt = none → ∃ n, res = Except.ok n) := by
  intro fuel
  induction fuel with
  | zero =>
    intro src ds cap total acc h
    omega
  | succ f ih =>
    intro src ds cap total acc h
    cases hf : src.fillBuf with
    | error e =>
      rw [readLoop_err_eq d f ds cap total acc hf]
      refine ⟨Except.error e, src, ds, false, acc, rfl, ?_⟩
      intro hnone
      obtain ⟨-, hsome⟩ := fillBuf_error hf
      rw [hnone] at hsome
      cases hsome
    | ok pr =>
      obtain ⟨bs, src2⟩ := pr
      obtain ⟨hbs, hck, hfa, hec⟩ := fillBuf_ok hf
      by_cases hbe : bs.isEmpty
      · cases bs with
        | cons a l => simp at hbe
        | nil =>
          rw [readLoop_empty_eq d f ds cap total acc hf]
          cases hres : (d.step ds [] cap true).1.res
          · exact ⟨_, _, _, _, _, rfl, fun _ => ⟨_, rfl⟩⟩
          · exact ⟨_, _, _, _, _, rfl, fun _ => ⟨_, rfl⟩⟩
      · have hbe2 : bs.isEmpty = false := by
          cases hb : bs.isEmpty
          · rfl
          · exact absurd hb hbe
        rw [readLoop_cons_eq d f ds cap total acc hf hbe2]
        cases hres : (d.step ds bs cap false).1.res
        · have hbs2 : bs ≠ [] := by
            intro hb
            rw [hb] at hbe
            exact hbe rfl
          have hchead : src.chunks = bs :: src.chunks.tail := by
            cases hcc : src.chunks with
            | nil => rw [hcc] at hbs; simp at hbs; exact absurd hbs hbs2
            | cons c t => rw [hcc] at hbs; simp at hbs; rw [hbs]; rfl
          have hnr : (d.step ds bs cap false).1.nread = bs.length :=
            (hc ds bs cap false).2.2 hres
          have hck2 : (src2.consume (d.step ds bs cap false).1.nread).chunks =
              src.chunks.tail := by
            rw [hnr]
            exact consume_chunks_head (by rw [hck]; exact hchead)
          have hlt : src.chunks.length = src.chunks.tail.length + 1 := by
            conv_lhs => rw [hchead]
            rfl
          have hlen : (src2.consume (d.step ds bs cap false).1.nread).chunks.length < f := by
            rw [hck2]
            omega
          obtain ⟨res, s2, d2, eo, a2, heq, hok⟩ := ih _ _ _ _ _ hlen
          refine ⟨res, s2, d2, eo, a2, heq, ?_⟩
          intro hnone
          apply hok
          obtain ⟨hfa2, -, -⟩ := consume_fields src2 (d.step ds bs cap false).1.nread
          rw [hfa2, hfa, hnone]
        · exact ⟨_, _, _, _, _, rfl, fun _ => ⟨_, rfl⟩⟩

/-- C4: a call to `read` fails exactly when the underlying fill operation
fails: any error it returns is the source's own error payload, propagated
verbatim; and whenever the source never fails, a conforming decoder — for
every byte content whatsoever, malformed or not, which it absorbs via
replacement — makes `read` return a byte count. -/
theorem c4_error_iff_fill {σ : Type} (d : Decoder σ) (hc : Conforms d)
    (r : TextReader σ) (cap : Nat) :
    (∀ fuel e r2 acc, r.read d cap fuel = some (Except.error e, r2, acc) →
      e = r.inner.errCode ∧ r.inner.failAt.isSome) ∧
    (r.inner.failAt = none →
      ∃ n r2 acc, r.readAuto d cap = some (Except.ok n, r2, acc)) := by
  constructor
  · intro fuel e r2 acc h
    unfold TextReader.read at h
    by_cases he : r.eof
    · rw [if_pos he] at h
      simp at h
    · rw [if_neg he] at h
      cases hl : readLoop d fuel r.inner r.decSt cap 0 [] with
      | none => rw [hl] at h; simp at h
      | some q =>
        obtain ⟨res, src, ds, eo, acc2⟩ := q
        rw [hl] at h
        simp only [Option.some.injEq, Prod.mk.injEq] at h
        obtain ⟨h1, -⟩ := h
        subst h1
        exact readLoop_error d fuel r.inner r.decSt cap 0 [] e src ds eo acc2 hl
  · intro hnone
    unfold TextReader.readAuto TextReader.read
    by_cases he : r.eof
    · rw [if_pos he]
      exact ⟨0, r, [], rfl⟩
    · rw [if_neg he]
      obtain ⟨res, src2, ds2, eo, acc2, heq, hok⟩ :=
        readLoop_total d hc (r.inner.chunks.length + 1) r.inner r.decSt cap 0 []
          (by omega)
      obtain ⟨n, hn⟩ := hok hnone
      subst hn
      rw [heq]
      exact ⟨n, ⟨src2, ds2, eo⟩, acc2, rfl⟩

/-! ### Facts about the UTF-8 front classifier -/

theorem utf8Len_bounds {b n : Nat} (h : utf8Len b = some n) : 1 ≤ n ∧ n ≤ 4 := by
  unfold utf8Len at h
  split_ifs at h <;> simp_all <;> omega

theorem u8FrontAux_cons (lead n i b : Nat) (acc bs : List Nat) :
    u8FrontAux lead n i acc (b :: bs) =
      if contOkB lead i b then
        if i + 1 = n then Front.unit n (acc ++ [b])
        else u8FrontAux lead n (i + 1) (acc ++ [b]) bs
      else Front.unit acc.length repl := rfl

theorem u8FrontAux_ne_empty (lead n : Nat) :
    ∀ l i acc, u8FrontAux lead n i acc l ≠ Front.empty := by
  intro l
  induction l with
  | nil => intro i acc; simp [u8FrontAux]
  | cons b bs ih =>
    intro i acc
    unfold u8FrontAux
    by_cases h1 : contOkB lead i b
    · rw [if_pos h1]
      by_cases h2 : i + 1 = n
      · rw [if_pos h2]; simp
      · rw [if_neg h2]; exact ih (i + 1) (acc ++ [b])
    · rw [if_neg h1]; simp

theorem u8Front_cons (b : Nat) (rest : List Nat) :
    u8Front (b :: rest) =
      match utf8Len b with
      | none => Front.unit 1 repl
      | some n => if n = 1 then Front.unit 1 [b] else u8FrontAux b n 1 [b] rest := rfl

theorem u8Front_cons_none {b : Nat} (rest : List Nat) (h : utf8Len b = none) :
    u8Front (b :: rest) = Front.unit 1 repl := by
  rw [u8Front_cons, h]

theorem u8Front_cons_some {b n : Nat} (rest : List Nat) (h : utf8Len b = some n) :
    u8Front (b :: rest) =
      if n = 1 then Front.unit 1 [b] else u8FrontAux b n 1 [b] rest := by
  rw [u8Front_cons, h]

theorem u8Front_empty_iff {w : List Nat} : u8Front w = Front.empty ↔ w = [] := by
  constructor
  · intro h
    cases w with
    | nil => rfl
    | cons b rest =>
      cases hn : utf8Len b with
      | none => rw [u8Front_cons_none rest hn] at h; simp at h
      | some n =>
        rw [u8Front_cons_some rest hn] at h
        by_cases h1 : n = 1
        · rw [if_pos h1] at h; simp at h
        · rw [if_neg h1] at h
          exact absurd h (u8FrontAux_ne_empty b n rest 1 [b])
  · intro h; subst h; rfl

theorem u8FrontAux_unit_k_ge (lead n : Nat) :
    ∀ l i acc k out, acc.length = i →
      u8FrontAux lead n i acc l = Front.unit k out → i ≤ k := by
  intro l
  induction l with
  | nil => intro i acc k out _ h; simp [u8FrontAux] at h
  | cons b bs ih =>
    intro i acc k out hai h
    unfold u8FrontAux at h
    by_cases h1 : contOkB lead i b
    · rw [if_pos h1] at h
      by_cases h2 : i + 1 = n
      · rw [if_pos h2] at h
        simp only [Front.unit.injEq] at h
        omega
      · rw [if_neg h2] at h
        have := ih (i + 1) (acc ++ [b]) k out (by simp [hai]) h
        omega
    · rw [if_neg h1] at h
      simp only [Front.unit.injEq] at h
      omega

theorem u8FrontAux_unit_bounds (lead n : Nat) :
    ∀ l i acc k out, acc.length = i → 1 ≤ i → n ≤ 4 →
      u8FrontAux lead n i acc l = Front.unit k out →
      1 ≤ k ∧ k ≤ i + l.length ∧ 1 ≤ out.length ∧ out.length ≤ 4 := by
  intro l
  induction l with
  | nil => intro i acc k out _ _ _ h; simp [u8FrontAux] at h
  | cons b bs ih =>
    intro i acc k out hai hi hn h
    unfold u8FrontAux at h
    by_cases h1 : contOkB lead i b
    · rw [if_pos h1] at h
      by_cases h2 : i + 1 = n
      · rw [if_pos h2] at h
        simp only [Front.unit.injEq] at h
        obtain ⟨hk, hout⟩ := h
        subst hk
        subst hout
        simp only [List.length_append, List.length_cons, List.length_nil, hai]
        omega
      · rw [if_neg h2] at h
        have := ih (i + 1) (acc ++ [b]) k out (by simp [hai]) (by omega) hn h
        simp only [List.length_cons]
        omega
    · rw [if_neg h1] at h
      simp only [Front.unit.injEq] at h
      obtain ⟨hk, hout⟩ := h
      subst hk
      subst hout
      simp only [List.length_cons, repl, List.length_cons, List.length_nil, hai]
      omega

theorem u8Front_unit_bounds {w : List Nat} {k : Nat} {out : List Nat}
    (h : u8Front w = Front.unit k out) :
    1 ≤ k ∧ k ≤ w.length ∧ 1 ≤ out.length ∧ out.length ≤ 4 := by
  cases w with
  | nil => simp [u8Front] at h
  | cons b rest =>
    cases hn : utf8Len b with
    | none =>
      rw [u8Front_cons_none rest hn] at h
      simp only [Front.unit.injEq] at h
      obtain ⟨hk, hout⟩ := h
      subst hk
      subst hout
      simp [repl]
    | some n =>
      rw [u8Front_cons_some rest hn] at h
      obtain ⟨hn1, hn4⟩ := utf8Len_bounds hn
      by_cases h1 : n = 1
      · rw [if_pos h1] at h
        simp only [Front.unit.injEq] at h
        obtain ⟨hk, hout⟩ := h
        subst hk
        subst hout
        simp
      · rw [if_neg h1] at h
        have := u8FrontAux_unit_bounds b n rest 1 [b] k out (by simp) (by omega) hn4 h
        simp only [List.length_cons]
        omega

theorem u8FrontAux_conts_complete (lead n : Nat) :
    ∀ cs i acc r, contsOkB lead i cs = true → cs ≠ [] → i + cs.length = n →
      u8FrontAux lead n i acc (cs ++ r) = Front.unit n (acc ++ cs) := by
  intro cs
  induction cs with
  | nil => intro i acc r _ hne _; exact absurd rfl hne
  | cons b bs ih =>
    intro i acc r hok hne hlen
    unfold contsOkB at hok
    rw [Bool.and_eq_true] at hok
    obtain ⟨hok1, hok2⟩ := hok
    show u8FrontAux lead n i acc (b :: (bs ++ r)) = _
    unfold u8FrontAux
    rw [if_pos hok1]
    by_cases h2 : i + 1 = n
    · rw [if_pos h2]
      have hbs : bs = [] := by
        have := List.length_eq_zero.mp (by simp at hlen; omega : bs.length = 0)
        exact this
      subst hbs
      simp
    · rw [if_neg h2]
      have hbs : bs ≠ [] := by
        intro hb
        subst hb
        simp at hlen
        exact h2 hlen
      have := ih (i + 1) (acc ++ [b]) r hok2 hbs (by simp at hlen ⊢; omega)
      rw [this]
      simp

theorem u8FrontAux_conts_short (lead n : Nat) :
    ∀ cs i acc, contsOkB lead i cs = true → i + cs.length < n →
      u8FrontAux lead n i acc cs = Front.needMore := by
  intro cs
  induction cs with
  | nil => intro i acc _ _; rfl
  | cons b bs ih =>
    intro i acc hok hlen
    unfold contsOkB at hok
    rw [Bool.and_eq_true] at hok
    obtain ⟨hok1, hok2⟩ := hok
    unfold u8FrontAux
    rw [if_pos hok1]
    have h2 : i + 1 ≠ n := by simp at hlen; omega
    rw [if_neg h2]
    exact ih (i + 1) (acc ++ [b]) hok2 (by simp at hlen ⊢; omega)

theorem contsOkB_take (lead : Nat) :
    ∀ cs i j, contsOkB lead i cs = true → contsOkB lead i (cs.take j) = true := by
  intro cs
  induction cs with
  | nil => intro i j _; simp [contsOkB]
  | cons b bs ih =>
    intro i j hok
    unfold contsOkB at hok
    rw [Bool.and_eq_true] at hok
    cases j with
    | zero => rfl
    | succ j2 =>
      show contsOkB lead i (b :: bs.take j2) = true
      unfold contsOkB
      rw [Bool.and_eq_true]
      exact ⟨hok.1, ih (i + 1) j2 hok.2⟩

theorem charL_bounds {c : List Nat} (h : IsCharL c) :
    1 ≤ c.length ∧ c.length ≤ 4 := by
  cases h with
  | inl h1 =>
    obtain ⟨b, hc, -⟩ := h1
    subst hc
    simp
  | inr h2 =>
    obtain ⟨b, n, cs, hc, hlen, hn2, hcs, -⟩ := h2
    subst hc
    obtain ⟨-, h4⟩ := utf8Len_bounds hlen
    simp only [List.length_cons]
    omega

theorem front_char {c : List Nat} (h : IsCharL c) (r : List Nat) :
    u8Front (c ++ r) = Front.unit c.length c := by
  cases h with
  | inl h1 =>
    obtain ⟨b, hc, hb⟩ := h1
    subst hc
    show u8Front (b :: r) = _
    rw [u8Front_cons_some r hb]
    simp
  | inr h2 =>
    obtain ⟨b, n, cs, hc, hlen, hn2, hcs, hok⟩ := h2
    subst hc
    show u8Front (b :: (cs ++ r)) = _
    rw [u8Front_cons_some (cs ++ r) hlen]
    rw [if_neg (by omega : ¬n = 1)]
    have hne : cs ≠ [] := by
      intro hcs2
      subst hcs2
      simp at hcs
      omega
    rw [u8FrontAux_conts_complete b n cs 1 [b] r hok hne (by omega)]
    simp only [Front.unit.injEq, List.length_cons]
    constructor
    · omega
    · rfl

theorem front_char_take {c : List Nat} (h : IsCharL c) {j : Nat}
    (hj1 : 1 ≤ j) (hj2 : j < c.length) : u8Front (c.take j) = Front.needMore := by
  cases h with
  | inl h1 =>
    obtain ⟨b, hc, -⟩ := h1
    subst hc
    simp at hj2
    omega
  | inr h2 =>
    obtain ⟨b, n, cs, hc, hlen, hn2, hcs, hok⟩ := h2
    subst hc
    cases j with
    | zero => omega
    | succ j2 =>
      show u8Front (b :: cs.take j2) = _
      rw [u8Front_cons_some (cs.take j2) hlen]
      rw [if_neg (by omega : ¬n = 1)]
      apply u8FrontAux_conts_short b n (cs.take j2) 1 [b]
        (contsOkB_take b cs 1 j2 hok)
      simp only [List.length_cons] at hj2
      have hjl : (cs.take j2).length = j2 := by
        rw [List.length_take]
        omega
      omega

theorem u8FrontAux_append (lead n : Nat) :
    ∀ l i acc, u8FrontAux lead n i acc l = Front.needMore →
      ∀ l2, u8FrontAux lead n i acc (l ++ l2) =
        u8FrontAux lead n (i + l.length) (acc ++ l) l2 := by
  intro l
  induction l with
  | nil => intro i acc _ l2; simp
  | cons b bs ih =>
    intro i acc h l2
    unfold u8FrontAux at h
    by_cases h1 : contOkB lead i b
    · rw [if_pos h1] at h
      by_cases h2 : i + 1 = n
      · rw [if_pos h2] at h; simp at h
      · rw [if_neg h2] at h
        show u8FrontAux lead n i acc (b :: (bs ++ l2)) = _
        rw [u8FrontAux_cons]
        rw [if_pos h1, if_neg h2]
        rw [ih (i + 1) (acc ++ [b]) h l2]
        have e1 : i + 1 + bs.length = i + (b :: bs).length := by
          simp only [List.length_cons]
          omega
        have e2 : (acc ++ [b]) ++ bs = acc ++ (b :: bs) := by simp
        rw [e1, e2]
    · rw [if_neg h1] at h; simp at h

theorem front_pend_extend {p : List Nat} (h : u8Front p = Front.needMore)
    (inp : List Nat) :
    u8Front (p ++ inp) = Front.needMore ∨
      ∃ k out, u8Front (p ++ inp) = Front.unit k out ∧ p.length ≤ k := by
  cases p with
  | nil => simp [u8Front] at h
  | cons b rest =>
    cases hn : utf8Len b with
    | none => rw [u8Front_cons_none rest hn] at h; simp at h
    | some n =>
      rw [u8Front_cons_some rest hn] at h
      by_cases h1 : n = 1
      · rw [if_pos h1] at h; simp at h
      · rw [if_neg h1] at h
        have haux : u8Front ((b :: rest) ++ inp) =
            u8FrontAux b n (1 + rest.length) ([b] ++ rest) inp := by
          show u8Front (b :: (rest ++ inp)) = _
          rw [u8Front_cons_some (rest ++ inp) hn]
          rw [if_neg h1]
          exact u8FrontAux_append b n rest 1 [b] h inp
        cases hres : u8FrontAux b n (1 + rest.length) ([b] ++ rest) inp with
        | empty => exact absurd hres (u8FrontAux_ne_empty b n inp (1 + rest.length) ([b] ++ rest))
        | needMore =>
          left
          rw [haux]
          exact hres
        | unit k out =>
          right
          refine ⟨k, out, by rw [haux]; exact hres, ?_⟩
          have := u8FrontAux_unit_k_ge b n inp (1 + rest.length) ([b] ++ rest) k out
            (by simp only [List.singleton_append, List.length_cons]; omega) hres
          simp only [List.length_cons]
          omega

/-! ### Facts about the UTF-8 decode run -/

theorem u8RunF_succ (fuel : Nat) (w : List Nat) (cap : Nat) :
    u8RunF (fuel + 1) w cap =
      match u8Front w with
      | Front.empty => (0, [])
      | Front.needMore => (0, [])
      | Front.unit k out =>
        if out.length ≤ cap then
          (k + (u8RunF fuel (w.drop k) (cap - out.length)).1,
            out ++ (u8RunF fuel (w.drop k) (cap - out.length)).2)
        else (0, []) := rfl

theorem u8RunF_unit_eq {w : List Nat} {k : Nat} {out : List Nat} (fuel cap : Nat)
    (hfr : u8Front w = Front.unit k out) :
    u8RunF (fuel + 1) w cap =
      if out.length ≤ cap then
        (k + (u8RunF fuel (w.drop k) (cap - out.length)).1,
          out ++ (u8RunF fuel (w.drop k) (cap - out.length)).2)
      else (0, []) := by
  rw [u8RunF_succ, hfr]

theorem u8RunF_needMore_eq {w : List Nat} (fuel cap : Nat)
    (hfr : u8Front w = Front.needMore) : u8RunF (fuel + 1) w cap = (0, []) := by
  rw [u8RunF_succ, hfr]

theorem u8RunF_empty_eq {w : List Nat} (fuel cap : Nat)
    (hfr : u8Front w = Front.empty) : u8RunF (fuel + 1) w cap = (0, []) := by
  rw [u8RunF_succ, hfr]

theorem run_out_le : ∀ fuel (w : List Nat) cap, (u8RunF fuel w cap).2.length ≤ cap := by
  intro fuel
  induction fuel with
  | zero => intro w cap; simp [u8RunF]
  | succ f ih =>
    intro w cap
    cases hfr : u8Front w with
    | empty => rw [u8RunF_empty_eq f cap hfr]; simp
    | needMore => rw [u8RunF_needMore_eq f cap hfr]; simp
    | unit k out =>
      rw [u8RunF_unit_eq f cap hfr]
      by_cases hcap : out.length ≤ cap
      · rw [if_pos hcap]
        have := ih (w.drop k) (cap - out.length)
        simp only [List.length_append]
        omega
      · rw [if_neg hcap]; simp

theorem run_t_le : ∀ fuel (w : List Nat) cap, (u8RunF fuel w cap).1 ≤ w.length := by
  intro fuel
  induction fuel with
  | zero => intro w cap; simp [u8RunF]
  | succ f ih =>
    intro w cap
    cases hfr : u8Front w with
    | empty => rw [u8RunF_empty_eq f cap hfr]; simp
    | needMore => rw [u8RunF_needMore_eq f cap hfr]; simp
    | unit k out =>
      rw [u8RunF_unit_eq f cap hfr]
      by_cases hcap : out.length ≤ cap
      · rw [if_pos hcap]
        have h1 := ih (w.drop k) (cap - out.length)
        have h2 := u8Front_unit_bounds hfr
        rw [List.length_drop] at h1
        simp only
        omega
      · rw [if_neg hcap]; simp

theorem run_t_zero_iff : ∀ fuel (w : List Nat) cap,
    ((u8RunF fuel w cap).1 = 0 ↔ (u8RunF fuel w cap).2 = []) := by
  intro fuel
  induction fuel with
  | zero => intro w cap; simp [u8RunF]
  | succ f ih =>
    intro w cap
    cases hfr : u8Front w with
    | empty => rw [u8RunF_empty_eq f cap hfr]; simp
    | needMore => rw [u8RunF_needMore_eq f cap hfr]; simp
    | unit k out =>
      rw [u8RunF_unit_eq f cap hfr]
      by_cases hcap : out.length ≤ cap
      · rw [if_pos hcap]
        have h2 := u8Front_unit_bounds hfr
        constructor
        · intro h0
          simp only at h0
          exact absurd h0 (by omega)
        · intro h0
          simp only at h0
          have hnil : out = [] := (List.append_eq_nil.mp h0).1
          have hlen0 : out.length = 0 := by rw [hnil]; rfl
          simp only
          omega
      · rw [if_neg hcap]; simp

theorem run_stop : ∀ fuel (w : List Nat) cap, w.length ≤ fuel →
    u8Front (w.drop (u8RunF fuel w cap).1) = Front.empty ∨
    u8Front (w.drop (u8RunF fuel w cap).1) = Front.needMore ∨
    ∃ k out, u8Front (w.drop (u8RunF fuel w cap).1) = Front.unit k out ∧
      cap - (u8RunF fuel w cap).2.length < out.length := by
  intro fuel
  induction fuel with
  | zero =>
    intro w cap hlen
    have hw : w = [] := List.length_eq_zero.mp (by omega)
    subst hw
    left
    simp [u8RunF, u8Front]
  | succ f ih =>
    intro w cap hlen
    cases hfr : u8Front w with
    | empty => rw [u8RunF_empty_eq f cap hfr]; simp only [List.drop_zero]; left; exact hfr
    | needMore =>
      rw [u8RunF_needMore_eq f cap hfr]
      simp only [List.drop_zero]
      right; left; exact hfr
    | unit k out =>
      rw [u8RunF_unit_eq f cap hfr]
      by_cases hcap : out.length ≤ cap
      · rw [if_pos hcap]
        have h2 := u8Front_unit_bounds hfr
        have hrec := ih (w.drop k) (cap - out.length)
          (by rw [List.length_drop]; omega)
        have hdd : (w.drop k).drop (u8RunF f (w.drop k) (cap - out.length)).1 =
            w.drop (k + (u8RunF f (w.drop k) (cap - out.length)).1) := by
          simp [List.drop_drop, Nat.add_comm]
        rw [hdd] at hrec
        simp only [List.length_append]
        cases hrec with
        | inl h => left; exact h
        | inr h =>
          cases h with
          | inl h => right; left; exact h
          | inr h =>
            obtain ⟨k2, out2, hu, hc⟩ := h
            right; right
            exact ⟨k2, out2, hu, by omega⟩
      · rw [if_neg hcap]
        simp only [List.drop_zero, List.length_nil]
        right; right
        exact ⟨k, out, hfr, by omega⟩

theorem run_pend_align {p : List Nat} (hp : PendWf p) :
    ∀ fuel (inp : List Nat) cap, (u8RunF fuel (p ++ inp) cap).1 = 0 ∨
      p.length ≤ (u8RunF fuel (p ++ inp) cap).1 := by
  intro fuel inp cap
  cases hp with
  | inl h => subst h; right; simp
  | inr h =>
    cases fuel with
    | zero => left; simp [u8RunF]
    | succ f =>
      cases front_pend_extend h inp with
      | inl hfr =>
        rw [u8RunF_needMore_eq f cap hfr]
        left; rfl
      | inr hfr =>
        obtain ⟨k, out, hfr, hk⟩ := hfr
        rw [u8RunF_unit_eq f cap hfr]
        by_cases hcap : out.length ≤ cap
        · rw [if_pos hcap]
          right
          simp only
          omega
        · rw [if_neg hcap]
          left; rfl

/-! ### The step characterization and decoder contracts -/

theorem u8Step_eq_empty {pend inp : List Nat} {cap : Nat} (last : Bool)
    (h : u8Front ((pend ++ inp).drop
        (u8RunF (pend ++ inp).length (pend ++ inp) cap).1) = Front.empty) :
    u8Step pend inp cap last =
      (⟨CoderResult.inputEmpty, inp.length,
        (u8RunF (pend ++ inp).length (pend ++ inp) cap).2⟩, []) := by
  unfold u8Step
  rw [h]

theorem u8Step_eq_needMore {pend inp : List Nat} {cap : Nat} (last : Bool)
    (h : u8Front ((pend ++ inp).drop
        (u8RunF (pend ++ inp).length (pend ++ inp) cap).1) = Front.needMore) :
    u8Step pend inp cap last =
      (if last then
        if (u8RunF (pend ++ inp).length (pend ++ inp) cap).2.length + 3 ≤ cap then
          (⟨CoderResult.inputEmpty, inp.length,
            (u8RunF (pend ++ inp).length (pend ++ inp) cap).2 ++ repl⟩, [])
        else
          (⟨CoderResult.outputFull, inp.length,
            (u8RunF (pend ++ inp).length (pend ++ inp) cap).2⟩,
            (pend ++ inp).drop (u8RunF (pend ++ inp).length (pend ++ inp) cap).1)
      else
        (⟨CoderResult.inputEmpty, inp.length,
          (u8RunF (pend ++ inp).length (pend ++ inp) cap).2⟩,
          (pend ++ inp).drop (u8RunF (pend ++ inp).length (pend ++ inp) cap).1)) := by
  unfold u8Step
  rw [h]

theorem u8Step_eq_unit {pend inp : List Nat} {cap : Nat} (last : Bool)
    {k : Nat} {out : List Nat}
    (h : u8Front ((pend ++ inp).drop
        (u8RunF (pend ++ inp).length (pend ++ inp) cap).1) = Front.unit k out) :
    u8Step pend inp cap last =
      (⟨CoderResult.outputFull,
        (u8RunF (pend ++ inp).length (pend ++ inp) cap).1 - pend.length,
        (u8RunF (pend ++ inp).length (pend ++ inp) cap).2⟩,
        if (u8RunF (pend ++ inp).length (pend ++ inp) cap).1 = 0 then pend
        else []) := by
  unfold u8Step
  rw [h]

/-- The UTF-8 decoder model satisfies the decoder contract. -/
theorem u8_conforms : Conforms u8Decoder := by
  intro pend inp cap last
  have hd : u8Decoder.step pend inp cap last = u8Step pend inp cap last := rfl
  rw [hd]
  have hle := run_out_le (pend ++ inp).length (pend ++ inp) cap
  have htle := run_t_le (pend ++ inp).length (pend ++ inp) cap
  have hlen := List.length_append pend inp
  cases hfr : u8Front ((pend ++ inp).drop
      (u8RunF (pend ++ inp).length (pend ++ inp) cap).1) with
  | empty =>
    rw [u8Step_eq_empty last hfr]
    exact ⟨hle, Nat.le_refl _, fun _ => rfl⟩
  | needMore =>
    rw [u8Step_eq_needMore last hfr]
    by_cases hl : last
    · rw [if_pos hl]
      by_cases hfit : (u8RunF (pend ++ inp).length (pend ++ inp) cap).2.length + 3 ≤ cap
      · rw [if_pos hfit]
        refine ⟨?_, Nat.le_refl _, fun _ => rfl⟩
        have hr : ((u8RunF (pend ++ inp).length (pend ++ inp) cap).2 ++ repl).length =
            (u8RunF (pend ++ inp).length (pend ++ inp) cap).2.length + 3 := by
          rw [List.length_append]
          rfl
        show ((u8RunF (pend ++ inp).length (pend ++ inp) cap).2 ++ repl).length ≤ cap
        omega
      · rw [if_neg hfit]
        exact ⟨hle, Nat.le_refl _, fun _ => rfl⟩
    · rw [if_neg hl]
      exact ⟨hle, Nat.le_refl _, fun _ => rfl⟩
  | unit k out =>
    rw [u8Step_eq_unit last hfr]
    refine ⟨hle, ?_, ?_⟩
    · show (u8RunF (pend ++ inp).length (pend ++ inp) cap).1 - pend.length ≤ inp.length
      omega
    · intro hres
      simp at hres

/-- Length facts for the Windows-1252 decode run. -/
theorem wrun_t_le : ∀ (bs : List Nat) cap, (w1252Run bs cap).1 ≤ bs.length := by
  intro bs
  induction bs with
  | nil => intro cap; simp [w1252Run]
  | cons b bs2 ih =>
    intro cap
    unfold w1252Run
    by_cases hfit : (utf8Enc (w1252Map b)).length ≤ cap
    · rw [if_pos hfit]
      have := ih (cap - (utf8Enc (w1252Map b)).length)
      simp only [List.length_cons]
      omega
    · rw [if_neg hfit]
      simp

theorem wrun_out_le : ∀ (bs : List Nat) cap, (w1252Run bs cap).2.length ≤ cap := by
  intro bs
  induction bs with
  | nil => intro cap; simp [w1252Run]
  | cons b bs2 ih =>
    intro cap
    unfold w1252Run
    by_cases hfit : (utf8Enc (w1252Map b)).length ≤ cap
    · rw [if_pos hfit]
      have := ih (cap - (utf8Enc (w1252Map b)).length)
      simp only [List.length_append]
      omega
    · rw [if_neg hfit]
      simp

/-- The Windows-1252 decoder model satisfies the decoder contract. -/
theorem w1252_conforms : Conforms w1252Decoder := by
  intro s inp cap last
  have hd : w1252Decoder.step s inp cap last = w1252Step s inp cap last := rfl
  rw [hd]
  unfold w1252Step
  refine ⟨wrun_out_le inp cap, wrun_t_le inp cap, ?_⟩
  intro hres
  simp only at hres
  show (w1252Run inp cap).1 = inp.length
  by_cases h : (w1252Run inp cap).1 = inp.length
  · exact h
  · rw [if_neg h] at hres
    simp at hres

/-- Instrumented decoders inherit the decoder contract. -/
theorem countFinal_conforms {σ : Type} {d : Decoder σ} (h : Conforms d) :
    Conforms (countFinal d) := by
  intro s inp cap last
  exact h s.1 inp cap last

/-! ### Windows-1252 streaming facts -/

theorem w1252Run_cons_eq (b : Nat) (bs : List Nat) (cap : Nat) :
    w1252Run (b :: bs) cap =
      if (utf8Enc (w1252Map b)).length ≤ cap then
        ((w1252Run bs (cap - (utf8Enc (w1252Map b)).length)).1 + 1,
          utf8Enc (w1252Map b) ++
            (w1252Run bs (cap - (utf8Enc (w1252Map b)).length)).2)
      else (0, []) := rfl

theorem utf8Enc_pos (cp : Nat) : 1 ≤ (utf8Enc cp).length := by
  unfold utf8Enc
  split_ifs <;> simp

set_option maxRecDepth 4096 in
theorem w1252Map_small : ∀ b, b < 256 → w1252Map b < 0x10000 := by decide

theorem utf8Enc_le_three {cp : Nat} (h : cp < 0x10000) :
    (utf8Enc cp).length ≤ 3 := by
  unfold utf8Enc
  split_ifs <;> simp

theorem w1252All_cons (b : Nat) (bs : List Nat) :
    w1252All (b :: bs) = utf8Enc (w1252Map b) ++ w1252All bs := rfl

theorem w1252All_append (xs ys : List Nat) :
    w1252All (xs ++ ys) = w1252All xs ++ w1252All ys := by
  induction xs with
  | nil => rfl
  | cons b bs ih =>
    show w1252All (b :: (bs ++ ys)) = _
    rw [w1252All_cons, ih, w1252All_cons]
    simp

theorem wrun_out_eq : ∀ (bs : List Nat) cap,
    (w1252Run bs cap).2 = w1252All (bs.take (w1252Run bs cap).1) := by
  intro bs
  induction bs with
  | nil => intro cap; rfl
  | cons b bs2 ih =>
    intro cap
    rw [w1252Run_cons_eq]
    by_cases hfit : (utf8Enc (w1252Map b)).length ≤ cap
    · rw [if_pos hfit]
      simp only [List.take_succ_cons]
      show _ = w1252All (b :: bs2.take (w1252Run bs2 (cap - (utf8Enc (w1252Map b)).length)).1)
      unfold w1252All
      rw [ih (cap - (utf8Enc (w1252Map b)).length)]
    · rw [if_neg hfit]
      rfl

theorem wrun_progress {b : Nat} {bs : List Nat} {cap : Nat} (hb : b < 256)
    (hcap : 3 ≤ cap) : 1 ≤ (w1252Run (b :: bs) cap).1 := by
  rw [w1252Run_cons_eq]
  have he := utf8Enc_le_three (w1252Map_small b hb)
  rw [if_pos (by omega : (utf8Enc (w1252Map b)).length ≤ cap)]
  simp

theorem wrun_lt_of_ne {bs : List Nat} {cap : Nat}
    (h : (w1252Run bs cap).1 ≠ bs.length) : (w1252Run bs cap).1 < bs.length := by
  have := wrun_t_le bs cap
  omega

/-! ### The Windows-1252 read loop -/

theorem joinL_cons (c : List Nat) (t : List (List Nat)) :
    joinL (c :: t) = c ++ joinL t := rfl

theorem fillBuf_none_eq (s : Source) (h : s.failAt = none) :
    s.fillBuf = Except.ok (s.chunks.headD [],
      { s with nfills := s.nfills + 1 }) := by
  unfold Source.fillBuf
  rw [h]
  simp

theorem take_append_len (xs ys : List Nat) (m : Nat) :
    (xs ++ ys).take (xs.length + m) = xs ++ ys.take m := by
  simp [List.take_append_eq_append_take, List.take_of_length_le]

theorem drop_append_len (xs ys : List Nat) (m : Nat) :
    (xs ++ ys).drop (xs.length + m) = ys.drop m := by
  simp [List.drop_append_eq_append_drop, List.drop_of_length_le]

theorem consume_head_part {s : Source} {c : List Nat} {t : List (List Nat)}
    {n : Nat} (hc : s.chunks = c :: t) (hn : n < c.length) :
    (s.consume n).chunks = c.drop n :: t := by
  unfold Source.consume
  rw [hc]
  have : (c.drop n).isEmpty = false := by
    cases hd : c.drop n with
    | nil =>
      have := List.drop_eq_nil_iff.mp hd
      omega
    | cons x xs => rfl
  simp [this]

/-- The effect of one `read` call's loop through the Windows-1252 decoder:
some prefix of the pending stream is consumed and its transcoding appended
to the buffer; `eof` is set exactly when the whole stream was consumed and
flushed; with three bytes of room the call always makes progress. -/
theorem readLoop_w1252 : ∀ fuel (src : Source) cap total acc,
    src.Wf → src.failAt = none → src.chunks.length < fuel →
    (∀ b ∈ joinL src.chunks, b < 256) →
    ∃ tIn src2 eo,
      readLoop w1252Decoder fuel src () cap total acc =
        some (Except.ok (total + (w1252All ((joinL src.chunks).take tIn)).length),
          src2, (), eo, acc ++ w1252All ((joinL src.chunks).take tIn)) ∧
      tIn ≤ (joinL src.chunks).length ∧
      joinL src2.chunks = (joinL src.chunks).drop tIn ∧
      src2.Wf ∧ src2.failAt = none ∧
      (eo = true → (joinL src.chunks).drop tIn = []) ∧
      (eo = false → (joinL src.chunks).drop tIn ≠ []) ∧
      (3 ≤ cap → joinL src.chunks ≠ [] → 1 ≤ tIn) := by
  intro fuel
  induction fuel with
  | zero =>
    intro src cap total acc _ _ h _
    omega
  | succ f ih =>
    intro src cap total acc hwf hfa hflen hlt
    have hf := fillBuf_none_eq src hfa
    cases hc : src.chunks with
    | nil =>
      rw [hc] at hf
      have heq := readLoop_empty_eq w1252Decoder f () cap total acc hf
      have hstep : w1252Decoder.step () [] cap true =
          (⟨CoderResult.inputEmpty, 0, []⟩, ()) := rfl
      rw [hstep] at heq
      dsimp only at heq
      refine ⟨0, { src with nfills := src.nfills + 1 }, true, ?_, ?_, ?_, ?_, ?_, ?_, ?_, ?_⟩
      · rw [heq, hc]
        simp [w1252All, joinL]
      · simp
      · simp [hc, joinL]
      · intro c hcm
        exact hwf c hcm
      · exact hfa
      · intro _
        rfl
      · intro hfalse
        cases hfalse
      · intro _ hne
        exact absurd rfl hne
    | cons c t =>
      have hcne : c ≠ [] := hwf c (by rw [hc]; exact List.mem_cons_self c t)
      have hbs2 : src.chunks.headD [] = c := by rw [hc]; rfl
      rw [hbs2] at hf
      have hbe : c.isEmpty = false := by
        cases c with
        | nil => exact absurd rfl hcne
        | cons x xs => rfl
      have heq := readLoop_cons_eq w1252Decoder f () cap total acc hf hbe
      have hout := wrun_out_eq c cap
      have htle := wrun_t_le c cap
      by_cases hall : (w1252Run c cap).1 = c.length
      · -- decoder consumed the whole chunk: continue the loop
        have hres : (w1252Decoder.step () c cap false).1.res = CoderResult.inputEmpty := by
          show (if (w1252Run c cap).1 = c.length then CoderResult.inputEmpty
            else CoderResult.outputFull) = _
          rw [if_pos hall]
        have heq2 : readLoop w1252Decoder (f + 1) src () cap total acc =
            readLoop w1252Decoder f
              (({ src with nfills := src.nfills + 1 } : Source).consume
                (w1252Decoder.step () c cap false).1.nread)
              (w1252Decoder.step () c cap false).2
              (cap - (w1252Decoder.step () c cap false).1.out.length)
              (total + (w1252Decoder.step () c cap false).1.out.length)
              (acc ++ (w1252Decoder.step () c cap false).1.out) := by
          rw [heq, hres]
        have hnr : (w1252Decoder.step () c cap false).1.nread = c.length := hall
        have ho : (w1252Decoder.step () c cap false).1.out = w1252All c := by
          show (w1252Run c cap).2 = _
          rw [hout, hall, List.take_length]
        have hck2 : (({ src with nfills := src.nfills + 1 } : Source).consume
            (w1252Decoder.step () c cap false).1.nread).chunks = t := by
          rw [hnr]
          exact @consume_chunks_head { src with nfills := src.nfills + 1 } c t hc
        set src3 := ({ src with nfills := src.nfills + 1 } : Source).consume
            (w1252Decoder.step () c cap false).1.nread with hsrc3
        have hfa3 : src3.failAt = none := by
          rw [hsrc3]
          obtain ⟨h1, -, -⟩ := consume_fields { src with nfills := src.nfills + 1 }
            (w1252Decoder.step () c cap false).1.nread
          rw [h1]
          exact hfa
        have hwf3 : src3.Wf := by
          intro c2 hc2
          rw [hck2] at hc2
          exact hwf c2 (by rw [hc]; exact List.mem_cons_of_mem c hc2)
        have hlen3 : src3.chunks.length < f := by
          rw [hck2]
          rw [hc] at hflen
          simp only [List.length_cons] at hflen
          omega
        have hlt3 : ∀ b ∈ joinL src3.chunks, b < 256 := by
          intro b hb
          rw [hck2] at hb
          apply hlt
          rw [hc, joinL_cons]
          exact List.mem_append_right c hb
        obtain ⟨tIn2, src4, eo, hres4, htle4, hjoin4, hwf4, hfa4, heo1, heo2, -⟩ :=
          ih src3 (cap - (w1252Decoder.step () c cap false).1.out.length)
            (total + (w1252Decoder.step () c cap false).1.out.length)
            (acc ++ (w1252Decoder.step () c cap false).1.out) hwf3 hfa3 hlen3 hlt3
        rw [hck2] at hjoin4 htle4 heo1 heo2
        refine ⟨c.length + tIn2, src4, eo, ?_, ?_, ?_, hwf4, hfa4, ?_, ?_, ?_⟩
        · rw [heq2, hres4, hck2]
          rw [joinL_cons, take_append_len, w1252All_append, ho]
          simp [List.length_append, List.append_assoc, Nat.add_assoc]
        · rw [joinL_cons]
          simp only [List.length_append]
          omega
        · rw [hjoin4, joinL_cons, drop_append_len]
        · intro he
          rw [joinL_cons, drop_append_len]
          exact heo1 he
        · intro he
          rw [joinL_cons, drop_append_len]
          exact heo2 he
        · intro _ _
          have hcpos : 1 ≤ c.length := by
            cases c with
            | nil => exact absurd rfl hcne
            | cons x xs => simp
          omega
      · -- output full: the loop stops with part of the chunk consumed
        have hlt2 : (w1252Run c cap).1 < c.length := wrun_lt_of_ne hall
        have hres : (w1252Decoder.step () c cap false).1.res = CoderResult.outputFull := by
          show (if (w1252Run c cap).1 = c.length then CoderResult.inputEmpty
            else CoderResult.outputFull) = _
          rw [if_neg hall]
        have heq2 : readLoop w1252Decoder (f + 1) src () cap total acc =
            some (Except.ok (total + (w1252Decoder.step () c cap false).1.out.length),
              ({ src with nfills := src.nfills + 1 } : Source).consume
                (w1252Decoder.step () c cap false).1.nread,
              (w1252Decoder.step () c cap false).2, false,
              acc ++ (w1252Decoder.step () c cap false).1.out) := by
          rw [heq, hres]
        have hnr : (w1252Decoder.step () c cap false).1.nread = (w1252Run c cap).1 := rfl
        have ho : (w1252Decoder.step () c cap false).1.out =
            w1252All (c.take (w1252Run c cap).1) := hout
        have hck2 : (({ src with nfills := src.nfills + 1 } : Source).consume
            (w1252Decoder.step () c cap false).1.nread).chunks =
            c.drop (w1252Run c cap).1 :: t := by
          rw [hnr]
          exact @consume_head_part { src with nfills := src.nfills + 1 } c t _ hc hlt2
        refine ⟨(w1252Run c cap).1,
          ({ src with nfills := src.nfills + 1 } : Source).consume
            (w1252Decoder.step () c cap false).1.nread, false, ?_, ?_, ?_, ?_, ?_, ?_, ?_, ?_⟩
        · rw [heq2, ho]
          rw [joinL_cons, List.take_append_of_le_length (by omega)]
        · rw [joinL_cons]
          simp only [List.length_append]
          omega
        · rw [hck2, joinL_cons, joinL_cons,
            List.drop_append_of_le_length (by omega)]
        · intro c2 hc2
          rw [hck2] at hc2
          cases hc2 with
          | head =>
            intro hde
            have := List.drop_eq_nil_iff.mp hde
            omega
          | tail _ hmem => exact hwf c2 (by rw [hc]; exact List.mem_cons_of_mem c hmem)
        · obtain ⟨h1, -, -⟩ := consume_fields { src with nfills := src.nfills + 1 }
            (w1252Decoder.step () c cap false).1.nread
          rw [h1]
          exact hfa
        · intro hfalse
          cases hfalse
        · intro _
          rw [joinL_cons, List.drop_append_of_le_length (by omega)]
          intro hap
          have := List.append_eq_nil.mp hap
          have := List.drop_eq_nil_iff.mp this.1
          omega
        · intro hcap _
          cases hcb : c with
          | nil => exact absurd hcb hcne
          | cons b0 c2 =>
            have hb0 : b0 < 256 := by
              apply hlt
              rw [hc, joinL_cons, hcb]
              exact List.mem_append_left _ (List.mem_cons_self b0 c2)
            exact wrun_progress hb0 hcap

/-! ### Reading to the end -/

theorem read_of_loop {σ : Type} (d : Decoder σ) {r : TextReader σ}
    {cap fuel : Nat} {res : Except Nat Nat} {src2 : Source} {ds2 : σ} {eo : Bool}
    {acc : List Nat} (he : r.eof = false)
    (h : readLoop d fuel r.inner r.decSt cap 0 [] = some (res, src2, ds2, eo, acc)) :
    r.read d cap fuel = some (res, ⟨src2, ds2, eo⟩, acc) := by
  unfold TextReader.read
  rw [he]
  simp only [Bool.false_eq_true, if_false]
  rw [h]

theorem readToEnd_succ_eq {σ : Type} (d : Decoder σ) (f : Nat) (r : TextReader σ)
    (cap : Nat) :
    readToEnd d (f + 1) r cap =
      match r.readAuto d cap with
      | none => none
      | some (Except.error e, _, _) => some (Except.error e)
      | some (Except.ok n, r2, acc) =>
        if n = 0 then some (Except.ok [])
        else
          match readToEnd d f r2 cap with
          | none => none
          | some (Except.error e) => some (Except.error e)
          | some (Except.ok rest) => some (Except.ok (acc ++ rest)) := rfl

theorem readToEnd_zero_eq {σ : Type} (d : Decoder σ) (f : Nat) {r : TextReader σ}
    {cap : Nat} {r2 : TextReader σ} {out : List Nat}
    (h : r.readAuto d cap = some (Except.ok 0, r2, out)) :
    readToEnd d (f + 1) r cap = some (Except.ok []) := by
  rw [readToEnd_succ_eq, h]
  rfl

theorem readToEnd_pos_eq {σ : Type} (d : Decoder σ) (f : Nat) {r : TextReader σ}
    {cap n : Nat} {r2 : TextReader σ} {out rest : List Nat}
    (h : r.readAuto d cap = some (Except.ok n, r2, out)) (hn : ¬n = 0)
    (h2 : readToEnd d f r2 cap = some (Except.ok rest)) :
    readToEnd d (f + 1) r cap = some (Except.ok (out ++ rest)) := by
  rw [readToEnd_succ_eq, h]
  show (if n = 0 then some (Except.ok []) else
    match readToEnd d f r2 cap with
    | none => none
    | some (Except.error e) => some (Except.error e)
    | some (Except.ok rest) => some (Except.ok (out ++ rest))) = _
  rw [if_neg hn, h2]

theorem readToEnd_eof {σ : Type} (d : Decoder σ) (f : Nat) {r : TextReader σ}
    {cap : Nat} (he : r.eof = true) :
    readToEnd d (f + 1) r cap = some (Except.ok []) := by
  apply @readToEnd_zero_eq σ d f r cap r []
  unfold TextReader.readAuto TextReader.read
  rw [he]
  rfl

/-- A nonempty Windows-1252 transcoding result. -/
theorem w1252All_pos {xs : List Nat} (h : xs ≠ []) : 1 ≤ (w1252All xs).length := by
  cases xs with
  | nil => exact absurd rfl h
  | cons b l =>
    rw [w1252All_cons]
    have := utf8Enc_pos (w1252Map b)
    simp only [List.length_append]
    omega

/-- Reading a Windows-1252 transcoder to completion yields the canonical
transcoding of all source bytes — for every chunking of the input and every
output buffer of at least three bytes. -/
theorem readToEnd_w1252 : ∀ fc (r : TextReader Unit) cap, r.eof = false →
    r.inner.Wf → r.inner.failAt = none →
    (∀ b ∈ joinL r.inner.chunks, b < 256) → 3 ≤ cap →
    (joinL r.inner.chunks).length < fc →
    readToEnd w1252Decoder fc r cap =
      some (Except.ok (w1252All (joinL r.inner.chunks))) := by
  intro fc
  induction fc with
  | zero =>
    intro r cap _ _ _ _ _ h
    omega
  | succ f ih =>
    intro r cap he hwf hfa hlt hcap hflen
    obtain ⟨tIn, src2, eo, hloop, htle, hjoin, hwf2, hfa2, heo1, heo2, hprog⟩ :=
      readLoop_w1252 (r.inner.chunks.length + 1) r.inner cap 0 []
        hwf hfa (by omega) hlt
    have hread : r.readAuto w1252Decoder cap =
        some (Except.ok ((w1252All ((joinL r.inner.chunks).take tIn)).length),
          ⟨src2, (), eo⟩, w1252All ((joinL r.inner.chunks).take tIn)) := by
      unfold TextReader.readAuto
      apply read_of_loop w1252Decoder he
      rw [hloop]
      simp
    by_cases hn : (w1252All ((joinL r.inner.chunks).take tIn)).length = 0
    · -- the call wrote nothing: the stream must already be exhausted
      rw [readToEnd_zero_eq w1252Decoder f (by rw [hread, hn])]
      cases heo : eo with
      | true =>
        have hdrop := heo1 heo
        have htake : (joinL r.inner.chunks).take tIn = joinL r.inner.chunks := by
          have := List.take_append_drop tIn (joinL r.inner.chunks)
          rw [hdrop] at this
          simpa using this
        rw [← htake]
        rw [List.length_eq_zero.mp hn]
      | false =>
        have hne := heo2 heo
        have hjne : joinL r.inner.chunks ≠ [] := by
          intro h0
          rw [h0] at hne
          simp at hne
        have htpos := hprog hcap hjne
        have htk : (joinL r.inner.chunks).take tIn ≠ [] := by
          intro h0
          have h1 : min tIn (joinL r.inner.chunks).length = 0 := by
            rw [← List.length_take, h0]
            rfl
          rw [Nat.min_eq_zero_iff] at h1
          cases h1 with
          | inl h1 => omega
          | inr h1 => exact hjne (List.length_eq_zero.mp h1)
        exact absurd hn (by have := w1252All_pos htk; omega)
    · -- progress was made: recurse on the remaining stream
      cases heo : eo with
      | true =>
        rw [heo] at hread
        have hdrop := heo1 heo
        have hf1 : 1 ≤ f := by
          have : (joinL r.inner.chunks).take tIn ≠ [] := by
            intro h0
            rw [h0] at hn
            exact hn rfl
          have h1 : 1 ≤ tIn := by
            by_contra h2
            have : tIn = 0 := by omega
            rw [this] at hn
            exact hn rfl
          have h2 : 1 ≤ (joinL r.inner.chunks).length := by
            by_contra h3
            have h4 : joinL r.inner.chunks = [] :=
              List.length_eq_zero.mp (by omega)
            rw [h4] at hn
            simp at hn
            exact hn rfl
          omega
        obtain ⟨f2, hf2⟩ : ∃ f2, f = f2 + 1 := ⟨f - 1, by omega⟩
        subst hf2
        have hrec : readToEnd w1252Decoder (f2 + 1) ⟨src2, (), true⟩ cap =
            some (Except.ok []) := readToEnd_eof w1252Decoder f2 rfl
        rw [readToEnd_pos_eq w1252Decoder (f2 + 1) hread hn hrec]
        have htake : (joinL r.inner.chunks).take tIn = joinL r.inner.chunks := by
          have := List.take_append_drop tIn (joinL r.inner.chunks)
          rw [hdrop] at this
          simpa using this
        rw [List.append_nil, htake]
      | false =>
        rw [heo] at hread
        have hne := heo2 heo
        have hjne : joinL r.inner.chunks ≠ [] := by
          intro h0
          rw [h0] at hne
          simp at hne
        have htpos := hprog hcap hjne
        have hrec := ih ⟨src2, (), false⟩ cap rfl hwf2 hfa2
          (by
            intro b hb
            show b < 256
            apply hlt
            have : b ∈ (joinL r.inner.chunks).drop tIn := by
              rw [← hjoin]
              exact hb
            exact List.mem_of_mem_drop this)
          hcap
          (by
            show (joinL src2.chunks).length < f
            rw [hjoin, List.length_drop]
            omega)
        rw [readToEnd_pos_eq w1252Decoder f hread hn hrec]
        show some (Except.ok (w1252All ((joinL r.inner.chunks).take tIn) ++
          w1252All (joinL src2.chunks))) = _
        rw [hjoin, ← w1252All_append, List.take_append_drop]

/-! ### Claim witnesses and the chunking-invariance claims -/

theorem c1_final_flush_witness :
    readLoop w1252Decoder 1 ⟨[], none, 0, 0⟩ () 5 0 [] =
      some (Except.ok (0 + (w1252Decoder.step () [] 5 true).1.out.length),
        ⟨[], none, 0, 1⟩, (w1252Decoder.step () [] 5 true).2,
        decide ((w1252Decoder.step () [] 5 true).1.res = CoderResult.inputEmpty),
        [] ++ (w1252Decoder.step () [] 5 true).1.out) :=
  c1_final_flush w1252Decoder 0 ⟨[], none, 0, 0⟩ ⟨[], none, 0, 1⟩ () 5 0 [] rfl

theorem c2_eof_idempotent_witness :
    TextReader.read u8Decoder ⟨⟨[[1]], none, 0, 0⟩, [], true⟩ 5 5 =
      some (Except.ok 0, ⟨⟨[[1]], none, 0, 0⟩, [], true⟩, []) :=
  c2_eof_idempotent u8Decoder ⟨⟨[[1]], none, 0, 0⟩, [], true⟩ 5 5 rfl

theorem c3_consume_exact_witness :
    (Source.consume ⟨[[7, 8, 9]], none, 0, 1⟩ 2).allBytes =
      (Source.allBytes ⟨[[7, 8, 9]], none, 0, 1⟩).drop 2 :=
  (c3_consume_exact w1252Decoder 3 ⟨[[7, 8, 9]], none, 0, 0⟩
    ⟨[[7, 8, 9]], none, 0, 1⟩ () 9 0 [] [7, 8, 9] rfl (by decide)).2 2 (by decide)

theorem c4_error_iff_fill_witness :
    ∃ n r2 acc, TextReader.readAuto w1252Decoder
      ⟨⟨[[0x41, 0xFF]], none, 0, 0⟩, (), false⟩ 9 = some (Except.ok n, r2, acc) :=
  (c4_error_iff_fill w1252Decoder w1252_conforms
    ⟨⟨[[0x41, 0xFF]], none, 0, 0⟩, (), false⟩ 9).2 rfl

/-- C7 counterexample: with a one-byte output buffer the transcoder returns
a different completed result (nothing) than with a four-byte buffer for the
same single-chunk Windows-1252 input 0xC9, so the result does depend on how
small the caller's buffer is. -/
theorem c7_counterexample :
    readToEnd w1252Decoder 2 ⟨⟨[[0xC9]], none, 0, 0⟩, (), false⟩ 1 =
      some (Except.ok []) ∧
    readToEnd w1252Decoder 2 ⟨⟨[[0xC9]], none, 0, 0⟩, (), false⟩ 4 =
      some (Except.ok [0xC3, 0x89]) ∧
    ([] : List Nat) ≠ [0xC3, 0x89] := by
  refine ⟨rfl, rfl, by decide⟩

/-- C7 (amended): decoding a byte sequence through the Windows-1252 reader
read to completion yields the canonical transcoding of the whole input,
regardless of how the input is chunked across fills and regardless of the
per-call output buffer size, provided the buffer holds at least one decoded
character (three bytes). -/
theorem c7_chunking_invariance (bs : List Nat) (cs : List (List Nat))
    (cap e : Nat) (hj : joinL cs = bs) (hwf : ∀ c ∈ cs, c ≠ [])
    (hb : ∀ b ∈ bs, b < 256) (hcap : 3 ≤ cap) :
    readToEnd w1252Decoder (bs.length + 1) ⟨⟨cs, none, e, 0⟩, (), false⟩ cap =
      some (Except.ok (w1252All bs)) := by
  have := readToEnd_w1252 (bs.length + 1) ⟨⟨cs, none, e, 0⟩, (), false⟩ cap rfl
    (by intro c hc; exact hwf c hc) rfl
    (by show ∀ b ∈ joinL cs, b < 256; rw [hj]; exact hb) hcap
    (by show (joinL cs).length < bs.length + 1; rw [hj]; omega)
  rw [this]
  show some (Except.ok (w1252All (joinL cs))) = _
  rw [hj]

theorem c7_chunking_invariance_witness :
    readToEnd w1252Decoder 3 ⟨⟨[[0x71], [0xC9]], none, 0, 0⟩, (), false⟩ 3 =
      some (Except.ok (w1252All [0x71, 0xC9])) :=
  c7_chunking_invariance [0x71, 0xC9] [[0x71], [0xC9]] 3 0 (by decide)
    (by decide) (by decide) (by decide)

/-- C10: when the fill operation fails on a later loop iteration, the call
returns only the error — the byte count accumulated by the earlier
iterations is discarded — while the bytes already written into the caller's
buffer and the consumption of source bytes persist. -/
theorem c10_nonatomic_error {σ : Type} (d : Decoder σ) (ds ds2 : σ)
    (c out : List Nat) (cap e : Nat) (hne : c ≠ [])
    (hstep : d.step ds c cap false = (⟨CoderResult.inputEmpty, c.length, out⟩, ds2)) :
    TextReader.read d ⟨⟨[c], some 1, e, 0⟩, ds, false⟩ cap 2 =
      some (Except.error e, ⟨⟨[], some 1, e, 1⟩, ds2, false⟩, [] ++ out) := by
  have hbe : c.isEmpty = false := by
    cases c with
    | nil => exact absurd rfl hne
    | cons x xs => rfl
  have hf : (⟨[c], some 1, e, 0⟩ : Source).fillBuf =
      Except.ok (c, ⟨[c], some 1, e, 1⟩) := by
    unfold Source.fillBuf
    simp
  apply read_of_loop d rfl
  rw [readLoop_cons_eq d 1 ds cap 0 [] hf hbe, hstep]
  show readLoop d 1 ((⟨[c], some 1, e, 1⟩ : Source).consume c.length) ds2
      (cap - out.length) (0 + out.length) ([] ++ out) = _
  have hcons : (⟨[c], some 1, e, 1⟩ : Source).consume c.length =
      (⟨[], some 1, e, 1⟩ : Source) := by
    unfold Source.consume
    simp
  rw [hcons]
  have hferr : (⟨[], some 1, e, 1⟩ : Source).fillBuf = Except.error e := by
    unfold Source.fillBuf
    simp
  rw [readLoop_err_eq d 0 ds2 (cap - out.length) (0 + out.length) ([] ++ out) hferr]

theorem c10_nonatomic_error_witness :
    TextReader.read u8Decoder ⟨⟨[[0x61, 0x62]], some 1, 7, 0⟩, [], false⟩ 8 2 =
      some (Except.error 7, ⟨⟨[], some 1, 7, 1⟩, [], false⟩, [] ++ [0x61, 0x62]) :=
  c10_nonatomic_error u8Decoder [] [] [0x61, 0x62] [0x61, 0x62] 8 7
    (by decide) (by decide)

/-! ### Valid UTF-8 streams through the decoder -/

theorem validU8_inv {v : List Nat} (h : ValidU8 v) :
    v = [] ∨ ∃ c tail, IsCharL c ∧ ValidU8 tail ∧ v = c ++ tail := by
  cases h with
  | nil => left; rfl
  | cons c tail hc ht => right; exact ⟨c, tail, hc, ht, rfl⟩

theorem drop_append_ge {xs ys : List Nat} {n : Nat} (h : xs.length ≤ n) :
    (xs ++ ys).drop n = ys.drop (n - xs.length) := by
  rw [List.drop_append_eq_append_drop, List.drop_of_length_le h]
  rfl

theorem streamPre_decomp {w z : List Nat} (h : ValidU8 (w ++ z)) (hne : w ≠ []) :
    u8Front w = Front.needMore ∨
      ∃ c w2, IsCharL c ∧ w = c ++ w2 ∧ ValidU8 (w2 ++ z) := by
  cases validU8_inv h with
  | inl h0 =>
    exact absurd (List.append_eq_nil.mp h0).1 hne
  | inr h0 =>
    obtain ⟨c, tail, hchar, htail, hconcat⟩ := h0
    by_cases hlen : c.length ≤ w.length
    · right
      have htk : (w ++ z).take c.length = w.take c.length :=
        List.take_append_of_le_length hlen
      have htk2 : (c ++ tail).take c.length = c := by
        rw [List.take_append_of_le_length (Nat.le_refl _), List.take_length]
      have hceq : c = w.take c.length := by
        rw [← htk]
        rw [hconcat]
        exact htk2.symm
      have hdr : (w ++ z).drop c.length = w.drop c.length ++ z :=
        List.drop_append_of_le_length hlen
      have hdr2 : (c ++ tail).drop c.length = tail := by
        rw [List.drop_append_of_le_length (Nat.le_refl _), List.drop_length]
        rfl
      refine ⟨c, w.drop c.length, hchar, ?_, ?_⟩
      · have h1 := (List.take_append_drop c.length w).symm
        rw [← hceq] at h1
        exact h1
      · have hgoal : ValidU8 ((w ++ z).drop c.length) := by
          rw [hconcat, hdr2]
          exact htail
        rw [hdr] at hgoal
        exact hgoal
    · left
      have hwlen : 1 ≤ w.length := by
        cases w with
        | nil => exact absurd rfl hne
        | cons x xs => simp
      have htk : (w ++ z).take w.length = w := by
        rw [List.take_append_of_le_length (Nat.le_refl _), List.take_length]
      have htk2 : (c ++ tail).take w.length = c.take w.length :=
        List.take_append_of_le_length (by omega)
      have hweq : w = c.take w.length :=
        htk.symm.trans (by rw [hconcat]; exact htk2)
      have hfr := @front_char_take c hchar w.length hwlen (by omega)
      rw [← hweq] at hfr
      exact hfr

/-- Over a validly-continuable stream the decode run is the identity: it
emits exactly the bytes it consumes, and it stops at a character boundary. -/
theorem run_valid : ∀ fuel (w z : List Nat) cap, ValidU8 (w ++ z) →
    w.length ≤ fuel →
    (u8RunF fuel w cap).2 = w.take (u8RunF fuel w cap).1 ∧
    ValidU8 (w.drop (u8RunF fuel w cap).1 ++ z) := by
  intro fuel
  induction fuel with
  | zero =>
    intro w z cap h hlen
    have hw : w = [] := List.length_eq_zero.mp (by omega)
    subst hw
    exact ⟨rfl, h⟩
  | succ f ih =>
    intro w z cap h hlen
    by_cases hne : w = []
    · subst hne
      rw [u8RunF_empty_eq f cap (rfl : u8Front [] = Front.empty)]
      exact ⟨rfl, h⟩
    · cases streamPre_decomp h hne with
      | inl hfr =>
        rw [u8RunF_needMore_eq f cap hfr]
        exact ⟨rfl, h⟩
      | inr hdec =>
        obtain ⟨c, w2, hchar, hw, hvalid⟩ := hdec
        have hfr : u8Front w = Front.unit c.length c := by
          rw [hw]
          exact front_char hchar w2
        rw [u8RunF_unit_eq f cap hfr]
        by_cases hfit : c.length ≤ cap
        · rw [if_pos hfit]
          have hclen := charL_bounds hchar
          have hdrop : w.drop c.length = w2 := by
            rw [hw]
            rw [List.drop_append_of_le_length (Nat.le_refl _), List.drop_length]
            rfl
          have hlend : w2.length ≤ f := by
            have : w.length = c.length + w2.length := by
              rw [hw, List.length_append]
            omega
          rw [hdrop]
          obtain ⟨ih1, ih2⟩ := ih w2 z (cap - c.length) hvalid hlend
          constructor
          · rw [ih1]
            show c ++ w2.take (u8RunF f w2 (cap - c.length)).1 = _
            rw [hw, take_append_len]
          · rw [hw, drop_append_len]
            exact ih2
        · rw [if_neg hfit]
          exact ⟨rfl, by rw [List.drop_zero]; exact h⟩

/-- A well-formed pending state that is itself a valid stream is empty. -/
theorem pend_nil_of_valid {p : List Nat} (hwf : PendWf p) (hv : ValidU8 p) :
    p = [] := by
  cases hwf with
  | inl h => exact h
  | inr h =>
    cases validU8_inv hv with
    | inl h0 => exact h0
    | inr h0 =>
      obtain ⟨c, tail, hchar, -, hconcat⟩ := h0
      rw [hconcat, front_char hchar tail] at h
      cases h

theorem allBytes_def (s : Source) : s.allBytes = joinL s.chunks := rfl

theorem consume_wf {s : Source} (h : s.Wf) (n : Nat) : (s.consume n).Wf := by
  intro c2 hc2
  unfold Source.consume at hc2
  cases hcc : s.chunks with
  | nil =>
    rw [hcc] at hc2
    exact h c2 hc2
  | cons c t =>
    rw [hcc] at hc2
    simp only at hc2
    by_cases hz : (c.drop n).isEmpty
    · rw [if_pos hz] at hc2
      exact h c2 (by rw [hcc]; exact List.mem_cons_of_mem c hc2)
    · rw [if_neg hz] at hc2
      cases hc2 with
      | head =>
        intro hnil
        rw [hnil] at hz
        exact hz rfl
      | tail _ hm => exact h c2 (by rw [hcc]; exact List.mem_cons_of_mem c hm)

theorem u8Step_valid_cont {pend c : List Nat} {cap : Nat}
    (hfr : u8Front ((pend ++ c).drop
        (u8RunF (pend ++ c).length (pend ++ c) cap).1) = Front.empty ∨
      u8Front ((pend ++ c).drop
        (u8RunF (pend ++ c).length (pend ++ c) cap).1) = Front.needMore) :
    u8Step pend c cap false =
      (⟨CoderResult.inputEmpty, c.length,
        (u8RunF (pend ++ c).length (pend ++ c) cap).2⟩,
        (pend ++ c).drop (u8RunF (pend ++ c).length (pend ++ c) cap).1) := by
  cases hfr with
  | inl h =>
    rw [u8Step_eq_empty false h]
    rw [u8Front_empty_iff.mp h]
  | inr h =>
    rw [u8Step_eq_needMore false h]
    rfl

/-- The effect of one `read` call's loop through the UTF-8 decoder on a
valid stream: a character-aligned prefix of the pending stream is copied
verbatim to the buffer; `eof` is set exactly when the whole stream was
consumed and flushed; with four bytes of room the call makes progress. -/
theorem readLoop_u8_valid : ∀ fuel (src : Source) (pend : List Nat) cap total acc,
    src.Wf → src.failAt = none → src.chunks.length < fuel →
    PendWf pend → ValidU8 (pend ++ joinL src.chunks) →
    ∃ t src2 pend2 eo,
      readLoop u8Decoder fuel src pend cap total acc =
        some (Except.ok (total + t), src2, pend2, eo,
          acc ++ (pend ++ joinL src.chunks).take t) ∧
      t ≤ (pend ++ joinL src.chunks).length ∧
      pend2 ++ joinL src2.chunks = (pend ++ joinL src.chunks).drop t ∧
      PendWf pend2 ∧ ValidU8 (pend2 ++ joinL src2.chunks) ∧
      src2.Wf ∧ src2.failAt = none ∧
      (eo = true → (pend ++ joinL src.chunks).drop t = []) ∧
      (4 ≤ cap → eo = false → 1 ≤ t) := by
  intro fuel
  induction fuel with
  | zero =>
    intro src pend cap total acc _ _ h _ _
    omega
  | succ f ih =>
    intro src pend cap total acc hwf hfa hflen hp hv
    have hf := fillBuf_none_eq src hfa
    cases hc : src.chunks with
    | nil =>
      rw [← hc]
      rw [hc] at hf
      have heq := readLoop_empty_eq u8Decoder f pend cap total acc hf
      have hpnil : pend = [] := by
        apply pend_nil_of_valid hp
        rw [hc] at hv
        show ValidU8 pend
        have hj : pend ++ joinL [] = pend := by simp [joinL]
        rw [hj] at hv
        exact hv
      subst hpnil
      have hstep : u8Decoder.step [] [] cap true =
          (⟨CoderResult.inputEmpty, 0, []⟩, []) := rfl
      rw [hstep] at heq
      dsimp only at heq
      refine ⟨0, { src with nfills := src.nfills + 1 }, [], true, ?_, ?_, ?_, ?_, ?_, ?_, ?_, ?_, ?_⟩
      · rw [heq, hc]
        simp [joinL]
      · simp
      · simp [hc, joinL]
      · left
        rfl
      · show ValidU8 ([] ++ joinL src.chunks)
        rw [hc]
        exact ValidU8.nil
      · intro c hcm
        exact hwf c hcm
      · exact hfa
      · intro _
        rw [hc]
        rfl
      · intro _ hfalse
        cases hfalse
    | cons c t =>
      rw [← hc]
      have hcne : c ≠ [] := hwf c (by rw [hc]; exact List.mem_cons_self c t)
      have hbs2 : src.chunks.headD [] = c := by rw [hc]; rfl
      rw [hbs2] at hf
      have hbe : c.isEmpty = false := by
        cases c with
        | nil => exact absurd rfl hcne
        | cons x xs => rfl
      have heq := readLoop_cons_eq u8Decoder f pend cap total acc hf hbe
      have hG : pend ++ joinL src.chunks = (pend ++ c) ++ joinL t := by
        rw [hc, joinL_cons, List.append_assoc]
      have hv2 : ValidU8 ((pend ++ c) ++ joinL t) := by rw [← hG]; exact hv
      have hrv := run_valid (pend ++ c).length (pend ++ c) (joinL t) cap hv2
        (Nat.le_refl _)
      have htle := run_t_le (pend ++ c).length (pend ++ c) cap
      have hole := run_out_le (pend ++ c).length (pend ++ c) cap
      have halign := run_pend_align hp (pend ++ c).length c cap
      have hds : u8Decoder.step pend c cap false = u8Step pend c cap false := rfl
      rw [hds] at heq
      cases hfront : u8Front ((pend ++ c).drop
          (u8RunF (pend ++ c).length (pend ++ c) cap).1) with
      | empty =>
        rw [u8Step_valid_cont (Or.inl hfront)] at heq
        dsimp only at heq
        have hrem : (pend ++ c).drop (u8RunF (pend ++ c).length (pend ++ c) cap).1 = [] :=
          u8Front_empty_iff.mp hfront
        have ht1 : (u8RunF (pend ++ c).length (pend ++ c) cap).1 = (pend ++ c).length := by
          have hd := List.drop_eq_nil_iff.mp hrem
          omega
        have hout : (u8RunF (pend ++ c).length (pend ++ c) cap).2 = pend ++ c := by
          rw [hrv.1, ht1, List.take_length]
        rw [hrem] at heq
        have hck2 : (({ src with nfills := src.nfills + 1 } : Source).consume c.length).chunks = t :=
          @consume_chunks_head { src with nfills := src.nfills + 1 } c t hc
        have hfa3 : (({ src with nfills := src.nfills + 1 } : Source).consume c.length).failAt = none := by
          obtain ⟨h1, -, -⟩ := consume_fields { src with nfills := src.nfills + 1 } c.length
          rw [h1]
          exact hfa
        have hwf3 : (({ src with nfills := src.nfills + 1 } : Source).consume c.length).Wf := by
          intro c2 hc2
          rw [hck2] at hc2
          exact hwf c2 (by rw [hc]; exact List.mem_cons_of_mem c hc2)
        have hlen3 : (({ src with nfills := src.nfills + 1 } : Source).consume c.length).chunks.length < f := by
          rw [hck2]
          rw [hc] at hflen
          simp only [List.length_cons] at hflen
          omega
        have hvrec : ValidU8 ([] ++ joinL (({ src with nfills := src.nfills + 1 } : Source).consume c.length).chunks) := by
          rw [hck2]
          have hv3 := hrv.2
          rw [hrem] at hv3
          exact hv3
        obtain ⟨t2, src4, pend4, eo, hres4, htle4, hjoin4, hp4, hv4, hwf4, hfa4, heo1, hprog4⟩ :=
          ih (({ src with nfills := src.nfills + 1 } : Source).consume c.length) []
            (cap - (u8RunF (pend ++ c).length (pend ++ c) cap).2.length)
            (total + (u8RunF (pend ++ c).length (pend ++ c) cap).2.length)
            (acc ++ (u8RunF (pend ++ c).length (pend ++ c) cap).2)
            hwf3 hfa3 hlen3 (Or.inl rfl) hvrec
        rw [hck2] at hjoin4 htle4 heo1 hres4
        simp only [List.nil_append] at hjoin4 htle4 heo1 hres4 hprog4
        refine ⟨(pend ++ c).length + t2, src4, pend4, eo, ?_, ?_, ?_, hp4, hv4, hwf4, hfa4, ?_, ?_⟩
        · rw [heq, hres4]
          rw [hG, take_append_len, hout]
          simp [List.append_assoc, Nat.add_assoc]
        · rw [hG]
          simp only [List.length_append]
          omega
        · rw [hjoin4, hG, drop_append_len]
        · intro he
          rw [hG, drop_append_len]
          exact heo1 he
        · intro _ _
          have hone : 1 ≤ (pend ++ c).length := by
            cases c with
            | nil => exact absurd rfl hcne
            | cons x xs => simp only [List.length_append, List.length_cons]; omega
          omega
      | needMore =>
        rw [u8Step_valid_cont (Or.inr hfront)] at heq
        dsimp only at heq
        have hck2 : (({ src with nfills := src.nfills + 1 } : Source).consume c.length).chunks = t :=
          @consume_chunks_head { src with nfills := src.nfills + 1 } c t hc
        have hfa3 : (({ src with nfills := src.nfills + 1 } : Source).consume c.length).failAt = none := by
          obtain ⟨h1, -, -⟩ := consume_fields { src with nfills := src.nfills + 1 } c.length
          rw [h1]
          exact hfa
        have hwf3 : (({ src with nfills := src.nfills + 1 } : Source).consume c.length).Wf := by
          intro c2 hc2
          rw [hck2] at hc2
          exact hwf c2 (by rw [hc]; exact List.mem_cons_of_mem c hc2)
        have hlen3 : (({ src with nfills := src.nfills + 1 } : Source).consume c.length).chunks.length < f := by
          rw [hck2]
          rw [hc] at hflen
          simp only [List.length_cons] at hflen
          omega
        have hvrec : ValidU8 ((pend ++ c).drop (u8RunF (pend ++ c).length (pend ++ c) cap).1 ++
            joinL (({ src with nfills := src.nfills + 1 } : Source).consume c.length).chunks) := by
          rw [hck2]
          exact hrv.2
        obtain ⟨t2, src4, pend4, eo, hres4, htle4, hjoin4, hp4, hv4, hwf4, hfa4, heo1, hprog4⟩ :=
          ih (({ src with nfills := src.nfills + 1 } : Source).consume c.length)
            ((pend ++ c).drop (u8RunF (pend ++ c).length (pend ++ c) cap).1)
            (cap - (u8RunF (pend ++ c).length (pend ++ c) cap).2.length)
            (total + (u8RunF (pend ++ c).length (pend ++ c) cap).2.length)
            (acc ++ (u8RunF (pend ++ c).length (pend ++ c) cap).2)
            hwf3 hfa3 hlen3 (Or.inr hfront) hvrec
        rw [hck2] at hjoin4 htle4 heo1 hres4
        have hdj : (pend ++ c).drop (u8RunF (pend ++ c).length (pend ++ c) cap).1 ++ joinL t =
            ((pend ++ c) ++ joinL t).drop (u8RunF (pend ++ c).length (pend ++ c) cap).1 :=
          (List.drop_append_of_le_length htle).symm
        rw [hdj] at hres4 htle4 hjoin4 heo1
        have hout2 : (u8RunF (pend ++ c).length (pend ++ c) cap).2.length =
            (u8RunF (pend ++ c).length (pend ++ c) cap).1 := by
          rw [hrv.1, List.length_take]
          omega
        refine ⟨(u8RunF (pend ++ c).length (pend ++ c) cap).1 + t2, src4, pend4, eo, ?_, ?_, ?_, hp4, hv4, hwf4, hfa4, ?_, ?_⟩
        · rw [heq, hres4]
          rw [hG, List.take_add]
          have htk : ((pend ++ c) ++ joinL t).take (u8RunF (pend ++ c).length (pend ++ c) cap).1 =
              (pend ++ c).take (u8RunF (pend ++ c).length (pend ++ c) cap).1 :=
            List.take_append_of_le_length htle
          rw [htk, ← hrv.1]
          rw [hout2]
          simp [List.append_assoc, Nat.add_assoc]
        · rw [hG]
          have h2 := htle4
          have h3 := htle
          simp only [List.length_drop, List.length_append] at h2 h3 ⊢
          omega
        · rw [hjoin4, hG, List.drop_drop]
        · intro he
          have hdone := heo1 he
          rw [List.drop_drop] at hdone
          rw [hG]
          exact hdone
        · intro hcap heo
          by_cases hz : (u8RunF (pend ++ c).length (pend ++ c) cap).1 = 0
          · have hz2 : (u8RunF (pend ++ c).length (pend ++ c) cap).2 = [] :=
              (run_t_zero_iff (pend ++ c).length (pend ++ c) cap).mp hz
            have hrec : 1 ≤ t2 := by
              apply hprog4 _ heo
              rw [hz2]
              simp
              omega
            omega
          · omega
      | unit k out =>
        rw [u8Step_eq_unit false hfront] at heq
        dsimp only at heq
        have hout2 : (u8RunF (pend ++ c).length (pend ++ c) cap).2.length =
            (u8RunF (pend ++ c).length (pend ++ c) cap).1 := by
          rw [hrv.1, List.length_take]
          omega
        have hnr : (u8RunF (pend ++ c).length (pend ++ c) cap).1 - pend.length ≤ c.length := by
          have hlen := List.length_append pend c
          omega
        by_cases hz : (u8RunF (pend ++ c).length (pend ++ c) cap).1 = 0
        · have hz2 : (u8RunF (pend ++ c).length (pend ++ c) cap).2 = [] :=
            (run_t_zero_iff (pend ++ c).length (pend ++ c) cap).mp hz
          rw [if_pos hz] at heq
          rw [hz, hz2] at heq
          have hcons0 : (({ src with nfills := src.nfills + 1 } : Source).consume
              (0 - pend.length)).chunks = src.chunks := by
            have h0 : 0 - pend.length = 0 := by omega
            rw [h0]
            have hclen : 0 < c.length := by
              cases c with
              | nil => exact absurd rfl hcne
              | cons x xs => simp
            rw [@consume_head_part { src with nfills := src.nfills + 1 } c t _ hc hclen]
            rw [List.drop_zero, hc]
          refine ⟨0, ({ src with nfills := src.nfills + 1 } : Source).consume
            (0 - pend.length), pend, false, ?_, ?_, ?_, hp, ?_, ?_, ?_, ?_, ?_⟩
          · rw [heq]
            simp
          · simp
          · rw [hcons0]
            simp
          · rw [hcons0]
            exact hv
          · exact consume_wf (by intro c2 hc2; exact hwf c2 hc2) (0 - pend.length)
          · obtain ⟨h1, -, -⟩ := consume_fields { src with nfills := src.nfills + 1 }
              (0 - pend.length)
            rw [h1]
            exact hfa
          · intro hfalse
            cases hfalse
          · intro hcap _
            exfalso
            have hstop := run_stop (pend ++ c).length (pend ++ c) cap (Nat.le_refl _)
            cases hstop with
            | inl h1 => rw [hfront] at h1; cases h1
            | inr h1 =>
              cases h1 with
              | inl h1 => rw [hfront] at h1; cases h1
              | inr h1 =>
                obtain ⟨k2, out2, hu, hcb⟩ := h1
                rw [hfront] at hu
                have hbnd := u8Front_unit_bounds hfront
                simp only [Front.unit.injEq] at hu
                obtain ⟨hk2, hout2eq⟩ := hu
                rw [hz2] at hcb
                subst hout2eq
                simp at hcb
                omega
        · have hge : pend.length ≤ (u8RunF (pend ++ c).length (pend ++ c) cap).1 := by
            cases halign with
            | inl h1 => omega
            | inr h1 => exact h1
          rw [if_neg hz] at heq
          have hjoin2 : joinL ((({ src with nfills := src.nfills + 1 } : Source).consume
              ((u8RunF (pend ++ c).length (pend ++ c) cap).1 - pend.length)).chunks) =
              (c ++ joinL t).drop
                ((u8RunF (pend ++ c).length (pend ++ c) cap).1 - pend.length) := by
            rw [← allBytes_def]
            rw [consume_allBytes { src with nfills := src.nfills + 1 }
              ((u8RunF (pend ++ c).length (pend ++ c) cap).1 - pend.length) c t hc hnr]
            rw [allBytes_def, hc, joinL_cons]
          have hdropG : ((pend ++ c) ++ joinL t).drop
              (u8RunF (pend ++ c).length (pend ++ c) cap).1 =
              (c ++ joinL t).drop
                ((u8RunF (pend ++ c).length (pend ++ c) cap).1 - pend.length) := by
            rw [List.append_assoc]
            exact drop_append_ge hge
          refine ⟨(u8RunF (pend ++ c).length (pend ++ c) cap).1,
            ({ src with nfills := src.nfills + 1 } : Source).consume
              ((u8RunF (pend ++ c).length (pend ++ c) cap).1 - pend.length), [], false,
            ?_, ?_, ?_, Or.inl rfl, ?_, ?_, ?_, ?_, ?_⟩
          · rw [heq]
            rw [hG]
            have htk : ((pend ++ c) ++ joinL t).take
                (u8RunF (pend ++ c).length (pend ++ c) cap).1 =
                (pend ++ c).take (u8RunF (pend ++ c).length (pend ++ c) cap).1 :=
              List.take_append_of_le_length htle
            rw [htk, ← hrv.1, hout2]
          · rw [hG]
            have h3 := htle
            simp only [List.length_append] at h3 ⊢
            omega
          · rw [hG]
            show [] ++ joinL _ = _
            rw [List.nil_append, hjoin2, hdropG]
          · show ValidU8 ([] ++ joinL _)
            rw [List.nil_append, hjoin2, ← hdropG]
            rw [List.drop_append_of_le_length htle]
            exact hrv.2
          · exact consume_wf (by intro c2 hc2; exact hwf c2 hc2) _
          · obtain ⟨h1, -, -⟩ := consume_fields { src with nfills := src.nfills + 1 } _
            rw [h1]
            exact hfa
          · intro hfalse
            cases hfalse
          · intro _ _
            omega

/-- Reading the UTF-8 decoder to completion over a valid stream returns the
stream's bytes unchanged — for every chunking of the input and every output
buffer of at least four bytes. -/
theorem readToEnd_u8_valid : ∀ fc (r : TextReader (List Nat)) cap, r.eof = false →
    r.inner.Wf → r.inner.failAt = none → PendWf r.decSt →
    ValidU8 (r.decSt ++ joinL r.inner.chunks) → 4 ≤ cap →
    (r.decSt ++ joinL r.inner.chunks).length < fc →
    readToEnd u8Decoder fc r cap =
      some (Except.ok (r.decSt ++ joinL r.inner.chunks)) := by
  intro fc
  induction fc with
  | zero =>
    intro r cap _ _ _ _ _ _ h
    omega
  | succ f ih =>
    intro r cap he hwf hfa hp hv hcap hflen
    obtain ⟨t, src2, pend2, eo, hres, htle, hjoin, hp2, hv2, hwf2, hfa2, heo1, hprog⟩ :=
      readLoop_u8_valid (r.inner.chunks.length + 1) r.inner r.decSt cap 0 []
        hwf hfa (by omega) hp hv
    have hread : r.readAuto u8Decoder cap =
        some (Except.ok t, ⟨src2, pend2, eo⟩,
          (r.decSt ++ joinL r.inner.chunks).take t) := by
      unfold TextReader.readAuto
      apply read_of_loop u8Decoder he
      rw [hres]
      simp
    by_cases hn : t = 0
    · rw [readToEnd_zero_eq u8Decoder f (by rw [hread, hn])]
      have heot : eo = true := by
        cases heo : eo with
        | true => rfl
        | false => exact absurd (hprog hcap heo) (by omega)
      have hdrop := heo1 heot
      rw [hn] at hdrop
      rw [List.drop_zero] at hdrop
      rw [hdrop]
    · cases heo : eo with
      | true =>
        rw [heo] at hread
        have hdrop := heo1 heo
        have htake : (r.decSt ++ joinL r.inner.chunks).take t =
            r.decSt ++ joinL r.inner.chunks := by
          have hconc := List.take_append_drop t (r.decSt ++ joinL r.inner.chunks)
          rw [hdrop] at hconc
          simpa using hconc
        have hf1 : 1 ≤ f := by omega
        obtain ⟨f2, hf2⟩ : ∃ f2, f = f2 + 1 := ⟨f - 1, by omega⟩
        subst hf2
        have hrec : readToEnd u8Decoder (f2 + 1) ⟨src2, pend2, true⟩ cap =
            some (Except.ok []) := readToEnd_eof u8Decoder f2 rfl
        rw [readToEnd_pos_eq u8Decoder (f2 + 1) hread hn hrec]
        rw [List.append_nil, htake]
      | false =>
        rw [heo] at hread
        have ht1 : 1 ≤ t := hprog hcap heo
        have hrec := ih ⟨src2, pend2, false⟩ cap rfl hwf2 hfa2 hp2 hv2 hcap
          (by
            show (pend2 ++ joinL src2.chunks).length < f
            rw [hjoin, List.length_drop]
            omega)
        rw [readToEnd_pos_eq u8Decoder f hread hn (by rw [hrec, hjoin])]
        rw [List.take_append_drop]

/-! ### Soundness of the executable validity check -/

theorem validU8F_cons_eq (f b : Nat) (rest : List Nat) :
    validU8F (f + 1) (b :: rest) =
      match utf8Len b with
      | none => false
      | some n =>
        if n = 1 then validU8F f rest
        else
          decide (n - 1 ≤ rest.length) && contsOkB b 1 (rest.take (n - 1)) &&
            validU8F f (rest.drop (n - 1)) := rfl

theorem validU8F_sound : ∀ f (w : List Nat), w.length ≤ f →
    validU8F f w = true → ValidU8 w := by
  intro f
  induction f with
  | zero =>
    intro w hlen _
    have hw : w = [] := List.length_eq_zero.mp (by omega)
    subst hw
    exact ValidU8.nil
  | succ fu ih =>
    intro w hlen h
    cases w with
    | nil => exact ValidU8.nil
    | cons b rest =>
      rw [validU8F_cons_eq] at h
      simp only [List.length_cons] at hlen
      cases hn : utf8Len b with
      | none =>
        rw [hn] at h
        cases h
      | some n =>
        rw [hn] at h
        dsimp only at h
        by_cases h1 : n = 1
        · rw [if_pos h1] at h
          have hchar : IsCharL [b] := Or.inl ⟨b, rfl, by rw [hn, h1]⟩
          have hrest : ValidU8 rest := ih rest (by omega) h
          exact ValidU8.cons [b] rest hchar hrest
        · rw [if_neg h1] at h
          simp only [Bool.and_eq_true, decide_eq_true_eq] at h
          obtain ⟨⟨hle, hconts⟩, hrec⟩ := h
          obtain ⟨hn1, hn4⟩ := utf8Len_bounds hn
          have h2n : 2 ≤ n := by omega
          have hchar : IsCharL (b :: rest.take (n - 1)) :=
            Or.inr ⟨b, n, rest.take (n - 1), rfl, hn, h2n,
              by rw [List.length_take]; omega, hconts⟩
          have hrest : ValidU8 (rest.drop (n - 1)) :=
            ih (rest.drop (n - 1)) (by rw [List.length_drop]; omega) hrec
          have hcat := ValidU8.cons (b :: rest.take (n - 1)) (rest.drop (n - 1))
            hchar hrest
          have hconc : (b :: rest.take (n - 1)) ++ rest.drop (n - 1) = b :: rest := by
            show b :: (rest.take (n - 1) ++ rest.drop (n - 1)) = b :: rest
            rw [List.take_append_drop]
          rw [hconc] at hcat
          exact hcat

theorem validU8_sound {w : List Nat} (h : validU8 w = true) : ValidU8 w :=
  validU8F_sound w.length w (Nat.le_refl _) h

/-- C8: for every valid UTF-8 input byte sequence, transcoding it through the
UTF-8 reader and reading to completion reproduces exactly the original bytes,
for every chunking of the source and every output buffer of at least four
bytes per call. -/
theorem c8_roundtrip (bs : List Nat) (cs : List (List Nat)) (cap : Nat)
    (hj : joinL cs = bs) (hwf : ∀ c ∈ cs, c ≠ []) (hv : validU8 bs = true)
    (hcap : 4 ≤ cap) :
    readToEnd u8Decoder (bs.length + 1) ⟨⟨cs, none, 0, 0⟩, [], false⟩ cap =
      some (Except.ok bs) := by
  have hva : ValidU8 ([] ++ joinL cs) := by
    rw [List.nil_append, hj]
    exact validU8_sound hv
  have h := readToEnd_u8_valid (bs.length + 1) ⟨⟨cs, none, 0, 0⟩, [], false⟩ cap
    rfl hwf rfl (Or.inl rfl) hva hcap
    (by rw [List.nil_append]; show (joinL cs).length < bs.length + 1; rw [hj]; omega)
  rw [h]
  rw [List.nil_append, hj]

theorem c8_roundtrip_witness :
    joinL [[0x71, 0xC3], [0xA9]] = [0x71, 0xC3, 0xA9] ∧
    validU8 [0x71, 0xC3, 0xA9] = true ∧
    readToEnd u8Decoder 4 ⟨⟨[[0x71, 0xC3], [0xA9]], none, 0, 0⟩, [], false⟩ 4 =
      some (Except.ok [0x71, 0xC3, 0xA9]) :=
  ⟨rfl, by decide, c8_roundtrip [0x71, 0xC3, 0xA9] [[0x71, 0xC3], [0xA9]] 4 rfl
    (by decide) (by decide) (by decide)⟩

/-! ### C5: zero-byte returns and end-of-stream -/

/-- A `read` that returns `Ok 0` while the stream still holds bytes: with a
one-byte output buffer, a two-byte character does not fit, the decoder reports
output-full immediately, and the call succeeds with 0 bytes mid-stream. -/
theorem c5_counterexample :
    TextReader.readAuto u8Decoder ⟨⟨[[0xC3, 0xA9]], none, 0, 0⟩, [], false⟩ 1 =
      some (Except.ok 0, ⟨⟨[[0xC3, 0xA9]], none, 0, 1⟩, [], false⟩, []) ∧
    (⟨⟨[[0xC3, 0xA9]], none, 0, 0⟩, [], false⟩ :
      TextReader (List Nat)).inner.allBytes ≠ [] ∧
    (⟨⟨[[0xC3, 0xA9]], none, 0, 0⟩, [], false⟩ :
      TextReader (List Nat)).eof = false :=
  ⟨rfl, by decide, rfl⟩

/-- A decodable unit at the front of the stream guarantees the decode run
consumes at least one byte when the unit's output (a character or the 3-byte
replacement, never more than four bytes) fits in the buffer. -/
theorem run_pos_of_unit {w : List Nat} {k : Nat} {out : List Nat} {cap : Nat}
    (h : u8Front w = Front.unit k out) (hcap : 4 ≤ cap) :
    1 ≤ (u8RunF w.length w cap).1 := by
  have hb := u8Front_unit_bounds h
  have hne : w ≠ [] := by
    intro h0
    rw [h0] at h
    have hfe : u8Front ([] : List Nat) = Front.empty := u8Front_empty_iff.mpr rfl
    rw [hfe] at h
    cases h
  have hlen : 1 ≤ w.length := by
    cases w with
    | nil => exact absurd rfl hne
    | cons x xs => simp
  obtain ⟨f, hfl⟩ : ∃ f, w.length = f + 1 := ⟨w.length - 1, by omega⟩
  rw [hfl, u8RunF_unit_eq f cap h, if_pos (by omega)]
  show 1 ≤ k + (u8RunF f (w.drop k) (cap - out.length)).1
  omega

/-- The final flush (`is_final = true`) on a stream ending in an incomplete
sequence: the replacement character is appended when it fits, otherwise the
step reports output-full and keeps the remainder buffered. -/
theorem u8Step_last_needMore_eq {pend inp : List Nat} {cap : Nat}
    (h : u8Front ((pend ++ inp).drop
        (u8RunF (pend ++ inp).length (pend ++ inp) cap).1) = Front.needMore) :
    u8Step pend inp cap true =
      (if (u8RunF (pend ++ inp).length (pend ++ inp) cap).2.length + 3 ≤ cap then
        (⟨CoderResult.inputEmpty, inp.length,
          (u8RunF (pend ++ inp).length (pend ++ inp) cap).2 ++ repl⟩, [])
      else
        (⟨CoderResult.outputFull, inp.length,
          (u8RunF (pend ++ inp).length (pend ++ inp) cap).2⟩,
          (pend ++ inp).drop
            (u8RunF (pend ++ inp).length (pend ++ inp) cap).1)) := by
  rw [u8Step_eq_needMore true h]
  rfl

/-- One pass of the read loop through the UTF-8 decoder on a never-failing
source always succeeds, and — given at least four bytes of output room —
writes nothing only when the stream (buffered decoder bytes and source
together) was already empty.  No assumption is made on the bytes: malformed
input advances via replacement characters. -/
theorem readLoop_u8_progress : ∀ fuel (src : Source) (pend : List Nat) cap total acc,
    src.Wf → src.failAt = none → src.chunks.length < fuel →
    ∃ t src2 pend2 eo acc2,
      readLoop u8Decoder fuel src pend cap total acc =
        some (Except.ok (total + t), src2, pend2, eo, acc2) ∧
      (4 ≤ cap → t = 0 → pend = [] ∧ src.chunks = []) := by
  intro fuel
  induction fuel with
  | zero =>
    intro src pend cap total acc _ _ h
    omega
  | succ f ih =>
    intro src pend cap total acc hwf hfa hflen
    have hf := fillBuf_none_eq src hfa
    cases hc : src.chunks with
    | nil =>
      rw [hc] at hf
      have heq := readLoop_empty_eq u8Decoder f pend cap total acc hf
      have hds : u8Decoder.step pend [] cap true = u8Step pend [] cap true := rfl
      rw [hds] at heq
      cases hfront : u8Front ((pend ++ []).drop
          (u8RunF (pend ++ []).length (pend ++ []) cap).1) with
      | empty =>
        rw [u8Step_eq_empty true hfront] at heq
        dsimp only at heq
        refine ⟨_, _, _, _, _, heq, ?_⟩
        intro _ ht0
        have hz2 : (u8RunF (pend ++ []).length (pend ++ []) cap).2 = [] :=
          List.length_eq_zero.mp ht0
        have hz1 : (u8RunF (pend ++ []).length (pend ++ []) cap).1 = 0 :=
          (run_t_zero_iff (pend ++ []).length (pend ++ []) cap).mpr hz2
        rw [hz1, List.drop_zero] at hfront
        have hpe : pend ++ [] = [] := u8Front_empty_iff.mp hfront
        rw [List.append_nil] at hpe
        exact ⟨hpe, rfl⟩
      | needMore =>
        rw [u8Step_last_needMore_eq hfront] at heq
        by_cases hfit : (u8RunF (pend ++ []).length (pend ++ []) cap).2.length + 3 ≤ cap
        · rw [if_pos hfit] at heq
          dsimp only at heq
          refine ⟨_, _, _, _, _, heq, ?_⟩
          intro _ ht0
          exfalso
          rw [List.length_append] at ht0
          have h3 : repl.length = 3 := rfl
          omega
        · rw [if_neg hfit] at heq
          dsimp only at heq
          refine ⟨_, _, _, _, _, heq, ?_⟩
          intro hcap ht0
          exfalso
          omega
      | unit k out0 =>
        rw [u8Step_eq_unit true hfront] at heq
        dsimp only at heq
        refine ⟨_, _, _, _, _, heq, ?_⟩
        intro hcap ht0
        exfalso
        have hz2 : (u8RunF (pend ++ []).length (pend ++ []) cap).2 = [] :=
          List.length_eq_zero.mp ht0
        have hz1 : (u8RunF (pend ++ []).length (pend ++ []) cap).1 = 0 :=
          (run_t_zero_iff (pend ++ []).length (pend ++ []) cap).mpr hz2
        rw [hz1, List.drop_zero] at hfront
        have hpos := run_pos_of_unit hfront hcap
        omega
    | cons c tl =>
      have hcne : c ≠ [] := hwf c (by rw [hc]; exact List.mem_cons_self c tl)
      have hbs2 : src.chunks.headD [] = c := by rw [hc]; rfl
      rw [hbs2] at hf
      have hbe : c.isEmpty = false := by
        cases c with
        | nil => exact absurd rfl hcne
        | cons x xs => rfl
      have heq := readLoop_cons_eq u8Decoder f pend cap total acc hf hbe
      have hds : u8Decoder.step pend c cap false = u8Step pend c cap false := rfl
      rw [hds] at heq
      have hck2 : (({ src with nfills := src.nfills + 1 } : Source).consume c.length).chunks = tl :=
        @consume_chunks_head { src with nfills := src.nfills + 1 } c tl hc
      have hfa3 : (({ src with nfills := src.nfills + 1 } : Source).consume c.length).failAt = none := by
        obtain ⟨h1, -, -⟩ := consume_fields { src with nfills := src.nfills + 1 } c.length
        rw [h1]
        exact hfa
      have hwf3 : (({ src with nfills := src.nfills + 1 } : Source).consume c.length).Wf := by
        intro c2 hc2
        rw [hck2] at hc2
        exact hwf c2 (by rw [hc]; exact List.mem_cons_of_mem c hc2)
      have hlen3 : (({ src with nfills := src.nfills + 1 } : Source).consume c.length).chunks.length < f := by
        rw [hck2]
        rw [hc] at hflen
        simp only [List.length_cons] at hflen
        omega
      cases hfront : u8Front ((pend ++ c).drop
          (u8RunF (pend ++ c).length (pend ++ c) cap).1) with
      | empty =>
        rw [u8Step_valid_cont (Or.inl hfront)] at heq
        dsimp only at heq
        have hrem : (pend ++ c).drop (u8RunF (pend ++ c).length (pend ++ c) cap).1 = [] :=
          u8Front_empty_iff.mp hfront
        rw [hrem] at heq
        obtain ⟨t2, src4, pend4, eo, acc4, hres4, -⟩ :=
          ih (({ src with nfills := src.nfills + 1 } : Source).consume c.length) []
            (cap - (u8RunF (pend ++ c).length (pend ++ c) cap).2.length)
            (total + (u8RunF (pend ++ c).length (pend ++ c) cap).2.length)
            (acc ++ (u8RunF (pend ++ c).length (pend ++ c) cap).2)
            hwf3 hfa3 hlen3
        refine ⟨(u8RunF (pend ++ c).length (pend ++ c) cap).2.length + t2,
          src4, pend4, eo, acc4, ?_, ?_⟩
        · rw [heq, hres4, Nat.add_assoc]
        · intro _ ht0
          exfalso
          have hd := List.drop_eq_nil_iff.mp hrem
          have htle := run_t_le (pend ++ c).length (pend ++ c) cap
          have hlenc : 1 ≤ c.length := by
            cases c with
            | nil => exact absurd rfl hcne
            | cons x xs => simp
          have hlenw := List.length_append pend c
          have h2 : (u8RunF (pend ++ c).length (pend ++ c) cap).2 ≠ [] := by
            intro h0
            have h1 := (run_t_zero_iff (pend ++ c).length (pend ++ c) cap).mpr h0
            omega
          have h3 : 1 ≤ (u8RunF (pend ++ c).length (pend ++ c) cap).2.length := by
            cases h4 : (u8RunF (pend ++ c).length (pend ++ c) cap).2 with
            | nil => exact absurd h4 h2
            | cons a l => simp
          omega
      | needMore =>
        rw [u8Step_valid_cont (Or.inr hfront)] at heq
        dsimp only at heq
        obtain ⟨t2, src4, pend4, eo, acc4, hres4, himp⟩ :=
          ih (({ src with nfills := src.nfills + 1 } : Source).consume c.length)
            ((pend ++ c).drop (u8RunF (pend ++ c).length (pend ++ c) cap).1)
            (cap - (u8RunF (pend ++ c).length (pend ++ c) cap).2.length)
            (total + (u8RunF (pend ++ c).length (pend ++ c) cap).2.length)
            (acc ++ (u8RunF (pend ++ c).length (pend ++ c) cap).2)
            hwf3 hfa3 hlen3
        refine ⟨(u8RunF (pend ++ c).length (pend ++ c) cap).2.length + t2,
          src4, pend4, eo, acc4, ?_, ?_⟩
        · rw [heq, hres4, Nat.add_assoc]
        · intro hcap ht0
          exfalso
          have hcap2 : 4 ≤ cap - (u8RunF (pend ++ c).length (pend ++ c) cap).2.length := by
            omega
          obtain ⟨hpend0, -⟩ := himp hcap2 (by omega)
          rw [hpend0] at hfront
          have hfe : u8Front ([] : List Nat) = Front.empty := u8Front_empty_iff.mpr rfl
          rw [hfe] at hfront
          cases hfront
      | unit k out0 =>
        rw [u8Step_eq_unit false hfront] at heq
        dsimp only at heq
        refine ⟨_, _, _, _, _, heq, ?_⟩
        intro hcap ht0
        exfalso
        have hz2 : (u8RunF (pend ++ c).length (pend ++ c) cap).2 = [] :=
          List.length_eq_zero.mp ht0
        have hz1 : (u8RunF (pend ++ c).length (pend ++ c) cap).1 = 0 :=
          (run_t_zero_iff (pend ++ c).length (pend ++ c) cap).mpr hz2
        rw [hz1, List.drop_zero] at hfront
        have hpos := run_pos_of_unit hfront hcap
        omega

/-- C5 (amended): with an output buffer of at least four bytes, a successful
`read` through the UTF-8 decoder returns 0 only at true end-of-stream — if a
call returns `Ok 0`, the decoder held no buffered bytes and the source had
none left.  No validity assumption is made on the bytes: malformed input
advances via replacement characters.  With a smaller buffer the guarantee
fails: a one-byte buffer returns `Ok 0` with two source bytes still unread. -/
theorem c5_zero_only_at_eos (r : TextReader (List Nat)) (cap : Nat)
    (he : r.eof = false) (hwf : r.inner.Wf) (hfa : r.inner.failAt = none)
    (hcap : 4 ≤ cap) {r2 : TextReader (List Nat)} {out : List Nat}
    (h : r.readAuto u8Decoder cap = some (Except.ok 0, r2, out)) :
    r.decSt = [] ∧ r.inner.allBytes = [] := by
  obtain ⟨t, src2, pend2, eo, acc2, hres, himp⟩ :=
    readLoop_u8_progress (r.inner.chunks.length + 1) r.inner r.decSt cap 0 []
      hwf hfa (by omega)
  have hread : r.readAuto u8Decoder cap =
      some (Except.ok t, ⟨src2, pend2, eo⟩, acc2) := by
    unfold TextReader.readAuto
    apply read_of_loop u8Decoder he
    rw [hres]
    simp
  rw [hread] at h
  simp only [Option.some.injEq, Prod.mk.injEq, Except.ok.injEq] at h
  obtain ⟨ht0, -, -⟩ := h
  obtain ⟨hp0, hc0⟩ := himp hcap ht0
  refine ⟨hp0, ?_⟩
  rw [allBytes_def, hc0]
  rfl

theorem c5_zero_only_at_eos_witness :
    TextReader.readAuto u8Decoder ⟨⟨[], none, 0, 0⟩, [], false⟩ 4 =
      some (Except.ok 0, ⟨⟨[], none, 0, 1⟩, [], true⟩, []) ∧
    ((⟨⟨[], none, 0, 0⟩, [], false⟩ :
      TextReader (List Nat)).decSt = [] ∧
     (⟨⟨[], none, 0, 0⟩, [], false⟩ :
      TextReader (List Nat)).inner.allBytes = []) :=
  ⟨rfl, c5_zero_only_at_eos ⟨⟨[], none, 0, 0⟩, [], false⟩ 4 rfl
    (by intro c hc; cases hc) rfl (by decide) rfl⟩

/-- C9: every call to `read` terminates.  For every conforming decoder the
loop returns after at most one iteration per source chunk plus the final
flush (and succeeds whenever the source never fails); and repeated reads
through the UTF-8 decoder on a valid stream reach completion — neither the
within-call loop nor the across-call sequence of reads runs forever, in
particular the final-flush path that reports output-full breaks the loop. -/
theorem c9_termination {σ : Type} (d : Decoder σ) (hcf : Conforms d)
    (r : TextReader σ) (cap : Nat) :
    (∃ res r2 out, r.readAuto d cap = some (res, r2, out) ∧
      (r.inner.failAt = none → ∃ n, res = Except.ok n)) ∧
    (∀ fc (r8 : TextReader (List Nat)) cap8, r8.eof = false → r8.inner.Wf →
      r8.inner.failAt = none → PendWf r8.decSt →
      ValidU8 (r8.decSt ++ joinL r8.inner.chunks) → 4 ≤ cap8 →
      (r8.decSt ++ joinL r8.inner.chunks).length < fc →
      ∃ w, readToEnd u8Decoder fc r8 cap8 = some (Except.ok w)) := by
  constructor
  · cases heof : r.eof with
    | true =>
      refine ⟨Except.ok 0, r, [], ?_, ?_⟩
      · unfold TextReader.readAuto TextReader.read
        rw [heof]
        rfl
      · intro _
        exact ⟨0, rfl⟩
    | false =>
      obtain ⟨res, src2, ds2, eo, acc2, hloop, hok⟩ :=
        readLoop_total d hcf (r.inner.chunks.length + 1) r.inner r.decSt cap 0 []
          (by omega)
      refine ⟨res, ⟨src2, ds2, eo⟩, acc2, ?_, hok⟩
      unfold TextReader.readAuto
      exact read_of_loop d heof hloop
  · intro fc r8 cap8 he hwf hfa hp hv hcap hlen
    exact ⟨r8.decSt ++ joinL r8.inner.chunks,
      readToEnd_u8_valid fc r8 cap8 he hwf hfa hp hv hcap hlen⟩

theorem c9_termination_witness :
    (∃ res r2 out,
      TextReader.readAuto w1252Decoder ⟨⟨[[0xC9]], none, 0, 0⟩, (), false⟩ 3 =
        some (res, r2, out) ∧
      ((⟨⟨[[0xC9]], none, 0, 0⟩, (), false⟩ :
        TextReader Unit).inner.failAt = none → ∃ n, res = Except.ok n)) ∧
    (∀ fc (r8 : TextReader (List Nat)) cap8, r8.eof = false → r8.inner.Wf →
      r8.inner.failAt = none → PendWf r8.decSt →
      ValidU8 (r8.decSt ++ joinL r8.inner.chunks) → 4 ≤ cap8 →
      (r8.decSt ++ joinL r8.inner.chunks).length < fc →
      ∃ w, readToEnd u8Decoder fc r8 cap8 = some (Except.ok w)) :=
  c9_termination w1252Decoder w1252_conforms ⟨⟨[[0xC9]], none, 0, 0⟩, (), false⟩ 3

/-! ### C6: how often the final flush is issued -/

/-- Two consecutive reads on a source that is immediately empty of further
data: each call re-issues the final flush (`is_final = true`), so the
instrumented invocation count reaches 2 — the flush is not a once-per-lifetime
event.  (A one-byte buffer cannot hold the replacement character, the flush
reports output-full, `eof` stays unset, and the next call flushes again.) -/
theorem c6_counterexample :
    TextReader.readAuto (countFinal u8Decoder)
        ⟨⟨[[0xC3]], none, 0, 0⟩, ([], 0), false⟩ 1 =
      some (Except.ok 0, ⟨⟨[], none, 0, 2⟩, ([0xC3], 1), false⟩, []) ∧
    TextReader.readAuto (countFinal u8Decoder)
        ⟨⟨[], none, 0, 2⟩, ([0xC3], 1), false⟩ 1 =
      some (Except.ok 0, ⟨⟨[], none, 0, 3⟩, ([0xC3], 2), false⟩, []) ∧
    (2 : Nat) ≠ 1 :=
  ⟨rfl, rfl, by decide⟩

/-- Per-call flush accounting for the read loop: one pass through the loop
invokes the decoder with `is_final = true` at most once, and whenever the
loop ends with `eof` set it flushed exactly once. -/
theorem readLoop_flush_count {σ : Type} (d : Decoder σ) :
    ∀ fuel src (s : σ) (k : Nat) cap total acc res src2 s2 k2 eo acc2,
      readLoop (countFinal d) fuel src (s, k) cap total acc =
        some (res, src2, (s2, k2), eo, acc2) →
      (k2 = k ∨ k2 = k + 1) ∧ (eo = true → k2 = k + 1) := by
  intro fuel
  induction fuel with
  | zero =>
    intro src s k cap total acc res src2 s2 k2 eo acc2 h
    exact absurd h (by simp [readLoop])
  | succ f ih =>
    intro src s k cap total acc res src2 s2 k2 eo acc2 h
    cases hf : src.fillBuf with
    | error e =>
      rw [readLoop_err_eq (countFinal d) f (s, k) cap total acc hf] at h
      have hk : k = k2 := congrArg (fun p => p.2.2.1.2) (Option.some.inj h)
      have heo : false = eo := congrArg (fun p => p.2.2.2.1) (Option.some.inj h)
      refine ⟨Or.inl hk.symm, ?_⟩
      intro he
      rw [← heo] at he
      cases he
    | ok pr =>
      obtain ⟨bs, src3⟩ := pr
      by_cases hbe : bs.isEmpty
      · have hbs : bs = [] := by
          cases bs with
          | nil => rfl
          | cons a l => simp at hbe
        subst hbs
        rw [readLoop_empty_eq (countFinal d) f (s, k) cap total acc hf] at h
        have hstep : (countFinal d).step (s, k) [] cap true =
            ((d.step s [] cap true).1, ((d.step s [] cap true).2, k + 1)) := rfl
        rw [hstep] at h
        dsimp only at h
        cases hres : (d.step s [] cap true).1.res with
        | inputEmpty =>
          rw [hres] at h
          dsimp only at h
          have hk : k + 1 = k2 := congrArg (fun p => p.2.2.1.2) (Option.some.inj h)
          exact ⟨Or.inr hk.symm, fun _ => hk.symm⟩
        | outputFull =>
          rw [hres] at h
          dsimp only at h
          have hk : k + 1 = k2 := congrArg (fun p => p.2.2.1.2) (Option.some.inj h)
          exact ⟨Or.inr hk.symm, fun _ => hk.symm⟩
      · have hbef : bs.isEmpty = false := by
          cases hb : bs.isEmpty with
          | true => exact absurd hb hbe
          | false => rfl
        rw [readLoop_cons_eq (countFinal d) f (s, k) cap total acc hf hbef] at h
        have hstep : (countFinal d).step (s, k) bs cap false =
            ((d.step s bs cap false).1, ((d.step s bs cap false).2, k)) := rfl
        rw [hstep] at h
        dsimp only at h
        cases hres : (d.step s bs cap false).1.res with
        | inputEmpty =>
          rw [hres] at h
          dsimp only at h
          exact ih _ _ _ _ _ _ res src2 s2 k2 eo acc2 h
        | outputFull =>
          rw [hres] at h
          dsimp only at h
          have hk : k = k2 := congrArg (fun p => p.2.2.1.2) (Option.some.inj h)
          have heo : false = eo := congrArg (fun p => p.2.2.2.1) (Option.some.inj h)
          refine ⟨Or.inl hk.symm, ?_⟩
          intro he
          rw [← heo] at he
          cases he

/-- C6 (amended): over one `read` call the decoder is invoked with
`is_final = true` at most once; a reader whose `eof` flag is already set is
returned unchanged (no further flush ever); and a call that sets `eof`
flushed exactly once.  The flush is not a once-per-lifetime event: when it
reports output-full, `eof` stays unset and the next call flushes again. -/
theorem c6_flush_per_call {σ : Type} (d : Decoder σ)
    (r : TextReader (σ × Nat)) (cap fuel : Nat) (res : Except Nat Nat)
    (r2 : TextReader (σ × Nat)) (out : List Nat)
    (h : r.read (countFinal d) cap fuel = some (res, r2, out)) :
    (r2.decSt.2 = r.decSt.2 ∨ r2.decSt.2 = r.decSt.2 + 1) ∧
    (r.eof = true → r2 = r) ∧
    (r.eof = false → r2.eof = true → r2.decSt.2 = r.decSt.2 + 1) := by
  unfold TextReader.read at h
  cases heof : r.eof with
  | true =>
    rw [heof] at h
    rw [if_pos rfl] at h
    have hr2 : r = r2 := congrArg (fun p => p.2.1) (Option.some.inj h)
    refine ⟨?_, ?_, ?_⟩
    · rw [← hr2]
      exact Or.inl rfl
    · intro _
      exact hr2.symm
    · intro hfalse
      cases hfalse
  | false =>
    rw [heof] at h
    simp only [Bool.false_eq_true, if_false] at h
    cases hloop : readLoop (countFinal d) fuel r.inner r.decSt cap 0 [] with
    | none =>
      rw [hloop] at h
      cases h
    | some q =>
      obtain ⟨res3, src2, ds2, eo, acc⟩ := q
      rw [hloop] at h
      dsimp only at h
      have hr2 : (⟨src2, ds2, eo⟩ : TextReader (σ × Nat)) = r2 :=
        congrArg (fun p => p.2.1) (Option.some.inj h)
      have hcount := readLoop_flush_count d fuel r.inner r.decSt.1 r.decSt.2
        cap 0 [] res3 src2 ds2.1 ds2.2 eo acc hloop
      refine ⟨?_, ?_, ?_⟩
      · rw [← hr2]
        exact hcount.1
      · intro he
        cases he
      · intro _ he2
        rw [← hr2] at he2 ⊢
        exact hcount.2 he2

theorem c6_flush_per_call_witness :
    ((⟨⟨[], none, 0, 2⟩, ([0xC3], 1), false⟩ :
        TextReader (List Nat × Nat)).decSt.2 =
      (⟨⟨[[0xC3]], none, 0, 0⟩, ([], 0), false⟩ :
        TextReader (List Nat × Nat)).decSt.2 ∨
     (⟨⟨[], none, 0, 2⟩, ([0xC3], 1), false⟩ :
        TextReader (List Nat × Nat)).decSt.2 =
      (⟨⟨[[0xC3]], none, 0, 0⟩, ([], 0), false⟩ :
        TextReader (List Nat × Nat)).decSt.2 + 1) ∧
    ((⟨⟨[[0xC3]], none, 0, 0⟩, ([], 0), false⟩ :
        TextReader (List Nat × Nat)).eof = true →
      (⟨⟨[], none, 0, 2⟩, ([0xC3], 1), false⟩ : TextReader (List Nat × Nat)) =
        ⟨⟨[[0xC3]], none, 0, 0⟩, ([], 0), false⟩) ∧
    ((⟨⟨[[0xC3]], none, 0, 0⟩, ([], 0), false⟩ :
        TextReader (List Nat × Nat)).eof = false →
      (⟨⟨[], none, 0, 2⟩, ([0xC3], 1), false⟩ :
        TextReader (List Nat × Nat)).eof = true →
      (⟨⟨[], none, 0, 2⟩, ([0xC3], 1), false⟩ :
        TextReader (List Nat × Nat)).decSt.2 =
      (⟨⟨[[0xC3]], none, 0, 0⟩, ([], 0), false⟩ :
        TextReader (List Nat × Nat)).decSt.2 + 1) :=
  c6_flush_per_call u8Decoder ⟨⟨[[0xC3]], none, 0, 0⟩, ([], 0), false⟩ 1 2
    (Except.ok 0) ⟨⟨[], none, 0, 2⟩, ([0xC3], 1), false⟩ [] rfl

end AttoText
